import Mathlib

/-!
Verification of the janitorr media-deduplication engine (src/janitorr.py)
against its natural-language specification.

Strings are modelled as `List Char` (Python `str` over the ASCII range that
media filenames use; `str.lower` is modelled by `Char.toLower`).  Python
floats (quality scores, file sizes, similarity ratios) are modelled as exact
rationals `ℚ`; integer-valued intermediate quantities stay in `ℤ`/`ℕ`.

Conventions:
* definitions carry the source's names (`get_quality_score`,
  `normalize_title`, `parse_episode_info`, `parse_movie_info`, `similarity`,
  `find_tv_duplicates`, `find_movie_duplicates`);
* definitions whose name starts with `spec` are *not* taken from the source:
  they follow the specification's wording, for refinement comparisons.
-/

/-- Shorthand: the character list of a string literal. -/
def str (s : String) : List Char := s.data

/-- Python `str.lower()` restricted to the ASCII range. -/
def pyLower (s : List Char) : List Char := s.map Char.toLower

/-- Python's substring test `needle in hay` on character lists. -/
def containsSub (needle : List Char) : List Char → Bool
  | [] => needle.isEmpty
  | c :: t => needle.isPrefixOf (c :: t) || containsSub needle t

/-- The quality lexicon `QUALITY_SCORES` of janitorr.py, lines 23-53.
The Python source is a dict literal in which the key `'extended'` appears
twice (both times with value 1); a dict keeps one entry per key, so the
lexicon below lists it once, at its first position. -/
def QUALITY_SCORES : List (List Char × Int) :=
  [ (str "4k", 8), (str "2160p", 8), (str "uhd", 8),
    (str "1440p", 6), (str "2k", 6),
    (str "1080p", 5), (str "fhd", 5),
    (str "720p", 4), (str "hd", 4),
    (str "480p", 3), (str "sd", 2),
    (str "360p", 1), (str "msd", 1),
    (str "remux", 10),
    (str "bluray", 8), (str "blu-ray", 8), (str "bdrip", 8), (str "brrip", 6),
    (str "webdl", 7), (str "web-dl", 7), (str "web", 6), (str "webrip", 5),
    (str "hdtv", 4), (str "pdtv", 3), (str "dvdrip", 3), (str "dvd", 3),
    (str "cam", 1), (str "ts", 1), (str "tc", 1),
    (str "av1", 5),
    (str "x265", 3), (str "h265", 3), (str "hevc", 3),
    (str "x264", 2), (str "h264", 2), (str "avc", 2),
    (str "xvid", 1), (str "divx", 1),
    (str "atmos", 3), (str "truehd", 3), (str "dts-hd", 3), (str "dts-x", 3),
    (str "dts", 2), (str "ac3", 1), (str "aac", 1),
    (str "repack", 1), (str "proper", 1), (str "real", 1),
    (str "extended", 1), (str "uncut", 1), (str "directors", 1),
    (str "hdr", 2), (str "hdr10", 2), (str "dolbyvision", 3), (str "dv", 3),
    (str "imax", 2), (str "criterion", 2), (str "remastered", 1),
    (str "anniversary", 1), (str "collectors", 1), (str "special", 1),
    (str "theatrical", 0), (str "director", 1) ]

/-- The keyword-weight accumulation loop of `get_quality_score`
(janitorr.py lines 75-77): lower-case the fragment and add the weight of
every lexicon keyword occurring in it as a substring. -/
def baseScore (quality_string : List Char) : Int :=
  QUALITY_SCORES.foldl
    (fun acc kv => if containsSub kv.1 (pyLower quality_string) then acc + kv.2 else acc) 0

/-- `get_quality_score` (janitorr.py lines 69-85): the keyword sum, and, when
`prefer_smaller` is set and the size is positive, subtract the penalty
`min(2, file_size_mb / 10000)`. -/
def get_quality_score (quality_string : List Char) (file_size_mb : ℚ)
    (prefer_smaller : Bool) : ℚ :=
  if prefer_smaller = true ∧ 0 < file_size_mb then
    (baseScore quality_string : ℚ) - min 2 (file_size_mb / 10000)
  else
    (baseScore quality_string : ℚ)

/-- Length of the common prefix of two character lists. -/
def commonLen : List Char → List Char → ℕ
  | x :: xs, y :: ys => if x == y then commonLen xs ys + 1 else 0
  | _, _ => 0

/-- `difflib.SequenceMatcher.find_longest_match` with `isjunk=None`
(the autojunk heuristic, which only applies to sequences of 200 or more
elements, is not modelled): among all maximal matching blocks, the one
starting earliest in `a`, then earliest in `b`.  Scanning index pairs in
ascending lexicographic order with strict improvement realises exactly that
tie-break. -/
def findLongestMatch (a b : List Char) : ℕ × ℕ × ℕ :=
  (List.range a.length).foldl
    (fun best i =>
      (List.range b.length).foldl
        (fun best j =>
          if best.2.2 < commonLen (a.drop i) (b.drop j) then
            (i, j, commonLen (a.drop i) (b.drop j))
          else best)
        best)
    (0, 0, 0)

/-- Total size of `difflib`'s matching blocks: recursively take the longest
match and recurse on the pieces before and after it.  The fuel argument
dominates the recursion depth; `matchTotal` supplies enough. -/
def matchTotalF : ℕ → List Char → List Char → ℕ
  | 0, _, _ => 0
  | fuel + 1, a, b =>
    let m := findLongestMatch a b
    if m.2.2 = 0 then 0
    else
      matchTotalF fuel (a.take m.1) (b.take m.2.1) + m.2.2 +
        matchTotalF fuel (a.drop (m.1 + m.2.2)) (b.drop (m.2.1 + m.2.2))

/-- Total size of the matching blocks of `SequenceMatcher(None, a, b)`. -/
def matchTotal (a b : List Char) : ℕ := matchTotalF (a.length + b.length) a b

/-- `SequenceMatcher.ratio()`: `2 * M / T` where `T = len(a) + len(b)` and
`M` is the total size of the matching blocks; `1.0` when `T = 0`. -/
def ratio (a b : List Char) : ℚ :=
  if a.length + b.length = 0 then 1
  else ((2 * matchTotal a b : ℕ) : ℚ) / ((a.length + b.length : ℕ) : ℚ)

/-- `similarity` (janitorr.py lines 94-96):
`SequenceMatcher(None, a.lower(), b.lower()).ratio()`. -/
def similarity (a b : List Char) : ℚ := ratio (pyLower a) (pyLower b)

/-- ASCII whitespace: the regex class `\s` (and Python `str.strip`). -/
def isSpaceChar (c : Char) : Bool :=
  c == ' ' || c == '\t' || c == '\n' || c == '\r' || c == '\x0b' || c == '\x0c'

/-- The regex class `\w` (ASCII): alphanumeric or underscore. -/
def isWordChar (c : Char) : Bool := c.isAlphanum || c == '_'

/-- The separator class of `normalize_title`'s second substitution:
dot, underscore, hyphen or whitespace. -/
def isSepChar (c : Char) : Bool := c == '.' || c == '_' || c == '-' || isSpaceChar c

/-- One alternative of the article pattern `^(the|a|an)\s+`: if `s` starts
with `art` followed by at least one whitespace character, the article and the
maximal whitespace run after it are removed. -/
def stripArticleAt (art s : List Char) : Option (List Char) :=
  if art.isPrefixOf s then
    match s.drop art.length with
    | c :: t => if isSpaceChar c then some ((c :: t).dropWhile isSpaceChar) else none
    | [] => none
  else none

/-- `re.sub(r'^(the|a|an)\s+', '', s)`: the alternatives are tried in the
pattern's order. -/
def stripArticle (s : List Char) : List Char :=
  match stripArticleAt (str "the") s with
  | some r => r
  | none =>
    match stripArticleAt (str "a") s with
    | some r => r
    | none =>
      match stripArticleAt (str "an") s with
      | some r => r
      | none => s

/-- `re.sub(r'[._\-\s]+', ' ', s)`: every maximal run of separator characters
becomes a single space.  The flag records whether the previous character was
part of a separator run. -/
def squeezeAux : Bool → List Char → List Char
  | _, [] => []
  | prevSep, c :: t =>
    if isSepChar c then
      if prevSep then squeezeAux true t else ' ' :: squeezeAux true t
    else c :: squeezeAux false t

/-- The separator-run collapse, starting outside a run. -/
def squeeze (s : List Char) : List Char := squeezeAux false s

/-- Trailing-whitespace strip (the right half of Python `str.strip()`). -/
def rstripWS (s : List Char) : List Char := (s.reverse.dropWhile isSpaceChar).reverse

/-- Python `str.strip()`: drop whitespace from both ends. -/
def stripWS (s : List Char) : List Char :=
  ((s.dropWhile isSpaceChar).reverse.dropWhile isSpaceChar).reverse

/-- `normalize_title` (janitorr.py lines 98-105): lower-case, strip a leading
article, collapse separator runs to single spaces and trim, then drop every
character that is neither a word character nor whitespace. -/
def normalize_title (title : List Char) : List Char :=
  (stripWS (squeeze (stripArticle (pyLower title)))).filter
    (fun c => isWordChar c || isSpaceChar c)

/-- Does the year pattern `\b(19|20)\d{2}\b` match at the current position?
`prev` is the character immediately before the position (`none` at the
start).  The leading `\b` reduces to "the previous character is not a word
character" (the match starts with a digit); the trailing `\b` to "the next
character, if any, is not a word character". -/
def yearAt (prev : Option Char) (s : List Char) : Bool :=
  (match prev with
   | none => true
   | some p => !(isWordChar p)) &&
  (match s with
   | d1 :: d2 :: d3 :: d4 :: rest =>
     ((d1 == '1' && d2 == '9') || (d1 == '2' && d2 == '0')) &&
       d3.isDigit && d4.isDigit &&
       (match rest with
        | [] => true
        | c :: _ => !(isWordChar c))
   | _ => false)

/-- `re.sub(r'\b(19|20)\d{2}\b', '', s)`: scan left to right, removing every
boundary-delimited year token; scanning resumes after a removed token, with
boundaries evaluated on the original text. -/
def removeYears (prev : Option Char) : List Char → List Char
  | [] => []
  | d1 :: d2 :: d3 :: d4 :: rest =>
    if yearAt prev (d1 :: d2 :: d3 :: d4 :: rest) then removeYears (some d4) rest
    else d1 :: removeYears (some d1) (d2 :: d3 :: d4 :: rest)
  | c :: t => c :: removeYears (some c) t

/-- Scanning check that no boundary-delimited year token occurs in a string,
`prev` being the character before the scan position. -/
def noYearAux : Option Char → List Char → Bool
  | _, [] => true
  | prev, c :: t => !(yearAt prev (c :: t)) && noYearAux (some c) t

/-- No boundary-delimited `(19|20)xx` token occurs anywhere in `s`. -/
def noYearToken (s : List Char) : Bool := noYearAux none s

/-- Numeric value of a digit string (Python `int` on a digit-only string). -/
def natOfDigits (l : List Char) : ℕ :=
  l.foldl (fun acc c => 10 * acc + (c.toNat - '0'.toNat)) 0

/-- A successful match of the episode pattern
`[Ss](\d{1,2})[Ee](\d{2,})(?:[-Ee](\d{2,}))?` (janitorr.py line 110):
its total length and its three numeric groups (`epEnd` is the optional
third group). -/
structure EpMatch where
  matchLen : ℕ
  season : ℕ
  epStart : ℕ
  epEnd : Option ℕ
deriving DecidableEq, Repr

/-- Matching the pattern after the season digits: one `[Ee]`, a maximal
digit run of at least two digits, then optionally one character of the
class `[-Ee]` followed by a further maximal digit run of at least two
digits. -/
def tryEpFrom (seasonDigits rest : List Char) : Option EpMatch :=
  match rest with
  | [] => none
  | e :: r1 =>
    if e == 'E' || e == 'e' then
      let run := r1.takeWhile Char.isDigit
      if 2 ≤ run.length then
        let base : EpMatch :=
          { matchLen := 1 + seasonDigits.length + 1 + run.length,
            season := natOfDigits seasonDigits,
            epStart := natOfDigits run, epEnd := none }
        match r1.dropWhile Char.isDigit with
        | [] => some base
        | x :: r3 =>
          if x == '-' || x == 'E' || x == 'e' then
            let run2 := r3.takeWhile Char.isDigit
            if 2 ≤ run2.length then
              some { base with
                matchLen := base.matchLen + 1 + run2.length,
                epEnd := some (natOfDigits run2) }
            else some base
          else some base
      else none
    else none

/-- Attempt to match the episode pattern at the start of `s`: `[Ss]`, then
`\d{1,2}` greedily (two digits tried first, backtracking to one), then the
rest of the pattern. -/
def tryEpMatch (s : List Char) : Option EpMatch :=
  match s with
  | [] => none
  | c :: rest =>
    if c == 'S' || c == 's' then
      match rest with
      | [] => none
      | d1 :: r1 =>
        if d1.isDigit then
          match r1 with
          | [] => none
          | d2 :: r2 =>
            if d2.isDigit then
              match tryEpFrom [d1, d2] r2 with
              | some m => some m
              | none => tryEpFrom [d1] (d2 :: r2)
            else tryEpFrom [d1] r1
        else none
    else none

/-- `re.search` for the episode pattern: the leftmost matching position
(with backtracking inside each position handled by `tryEpMatch`). -/
def epSearch (i : ℕ) : List Char → Option (ℕ × EpMatch)
  | [] => none
  | c :: t =>
    match tryEpMatch (c :: t) with
    | some m => some (i, m)
    | none => epSearch (i + 1) t

/-- The result record of `parse_episode_info`. -/
structure EpisodeInfo where
  series_name : List Char
  episode_id : List Char
  quality_info : List Char
  is_multi_episode : Bool
deriving DecidableEq, Repr

/-- Python `f"{n:02d}"`: decimal rendering padded to at least two digits. -/
def pad2 (n : ℕ) : List Char :=
  if n < 10 then '0' :: (Nat.repr n).data else (Nat.repr n).data

/-- `parse_episode_info` (janitorr.py lines 107-143): search for the episode
marker; on failure return `none`; on success render the episode id
(`S{season:02}E{start:02}`, with `-E{end:02}` appended when the optional
group matched with a different number), normalize the text before the
marker as the series name (with 4-digit year tokens removed), and return
the text after the marker verbatim as the quality fragment. -/
def parse_episode_info (filename : List Char) : Option EpisodeInfo :=
  match epSearch 0 filename with
  | none => none
  | some (i, m) =>
    let episode_end := m.epEnd.getD m.epStart
    let episode_id :=
      if m.epStart = episode_end then
        'S' :: pad2 m.season ++ 'E' :: pad2 m.epStart
      else
        'S' :: pad2 m.season ++ 'E' :: pad2 m.epStart ++ '-' :: 'E' :: pad2 episode_end
    some { series_name := stripWS (removeYears none (normalize_title (filename.take i))),
           episode_id := episode_id,
           quality_info := filename.drop (i + m.matchLen),
           is_multi_episode := !(m.epStart = episode_end) }

/-- Modelled from the spec's wording: the stem contains a season/episode
marker somewhere. -/
def specHasMarker (stem : List Char) : Bool :=
  (List.range stem.length).any (fun i => (tryEpMatch (stem.drop i)).isSome)

/-- A scanned TV media file, as handed to the engine by the filesystem
collaborator: an opaque path identity, the filename stem, and the size. -/
structure TVFile where
  path : ℕ
  stem : List Char
  size_mb : ℚ
deriving DecidableEq, Repr

/-- The per-file record built in pass 1 of `find_tv_duplicates`
(janitorr.py lines 234-242). -/
structure TVRec where
  path : ℕ
  series_key : List Char
  episode_key : List Char
  quality_info : List Char
  score : ℚ
  size_mb : ℚ
  is_multi_episode : Bool
deriving DecidableEq, Repr

/-- Pass 1 of `find_tv_duplicates` for one file: parse the stem, skipping
the file when no marker is found, otherwise score it. -/
def parseTVFile (prefer_smaller : Bool) (f : TVFile) : Option TVRec :=
  match parse_episode_info f.stem with
  | none => none
  | some info =>
    some { path := f.path, series_key := info.series_name,
           episode_key := info.episode_id, quality_info := info.quality_info,
           score := get_quality_score info.quality_info f.size_mb prefer_smaller,
           size_mb := f.size_mb, is_multi_episode := info.is_multi_episode }

/-- Keys in first-seen order (Python dict iteration order). -/
def firstKeys {α : Type} [DecidableEq α] (l : List α) : List α :=
  l.foldl (fun acc x => if x ∈ acc then acc else acc ++ [x]) []

/-- Passes 1-2 of `find_tv_duplicates` (janitorr.py lines 208-260), starting
from the already-scanned and filtered file list: parse every file (dropping
files whose stem has no marker), group the parsed records by their
`(series, episode)` key in first-seen order, and keep the groups with at
least two members. -/
def find_tv_duplicates (files : List TVFile) (prefer_smaller : Bool) :
    List ((List Char × List Char) × List TVRec) :=
  let parsed := files.filterMap (parseTVFile prefer_smaller)
  ((firstKeys (parsed.map fun r => (r.series_key, r.episode_key))).map
    (fun k => (k, parsed.filter fun r => r.series_key == k.1 && r.episode_key == k.2))).filter
    (fun g => 1 < g.2.length)

/-- `re.search(r'\b((19|20)\d{2})\b', s)` down the string: the leftmost
boundary-delimited year token, with its start index and its four digits;
`prev` is the character before the scan position. -/
def yearSearchAux (prev : Option Char) (i : ℕ) : List Char → Option (ℕ × List Char)
  | [] => none
  | c :: t =>
    if yearAt prev (c :: t) then some (i, (c :: t).take 4)
    else yearSearchAux (some c) (i + 1) t

/-- The leftmost boundary-delimited year token of `s`. -/
def yearSearch (s : List Char) : Option (ℕ × List Char) := yearSearchAux none 0 s

/-- The quality-indicator keywords scanned for the title boundary when no
year is present (janitorr.py line 171). -/
def quality_indicators : List (List Char) :=
  [str "1080p", str "720p", str "480p", str "4k", str "2160p", str "bluray",
   str "webrip", str "webdl", str "hdtv", str "x264", str "x265"]

/-- Index of the first occurrence of `needle` in the remaining text, `i`
being the absolute position of that text's start. -/
def subIdxFrom (needle : List Char) (i : ℕ) : List Char → Option ℕ
  | [] => if needle.isEmpty then some i else none
  | c :: t => if needle.isPrefixOf (c :: t) then some i else subIdxFrom needle (i + 1) t

/-- The result record of `parse_movie_info` (the `folder_path` field, a
filesystem handle, is carried separately by the pipeline). -/
structure MovieInfo where
  title : List Char
  year : Option (List Char)
  movie_id : List Char
  quality_info : List Char
  is_from_folder : Bool
deriving DecidableEq, Repr

/-- `parse_movie_info` (janitorr.py lines 145-201), taking the parent folder
name and the filename stem (the surrounding path handling belongs to the
excluded filesystem collaborator).  Chooses the folder name as title source
when it holds a year token and its stripped length exceeds 8; extracts the
leftmost year token; truncates the title at the year or, failing that, at
the earliest case-insensitive quality indicator; normalizes the title; the
identity key `movie_id` is the title, with ` ({year})` appended when a year
was found. -/
def parse_movie_info (folder_name filename : List Char) : MovieInfo :=
  let use_folder := (yearSearch folder_name).isSome && 8 < (stripWS folder_name).length
  let title_source := if use_folder then folder_name else filename
  match yearSearch title_source with
  | some (i, y) =>
    let title_normalized := normalize_title (title_source.take i)
    { title := title_normalized,
      year := some y,
      movie_id :=
        if y.isEmpty then title_normalized
        else title_normalized ++ str " (" ++ y ++ str ")",
      quality_info := title_source.drop (i + 4),
      is_from_folder := use_folder }
  | none =>
    let title_end := quality_indicators.foldl
      (fun te ind =>
        match subIdxFrom ind 0 (pyLower title_source) with
        | some j => min te j
        | none => te)
      title_source.length
    let title_normalized := normalize_title (title_source.take title_end)
    { title := title_normalized,
      year := none,
      movie_id := title_normalized,
      quality_info := title_source.drop title_end,
      is_from_folder := use_folder }

/-- Python truthiness of the optional year string. -/
def yearTruthy : Option (List Char) → Bool
  | none => false
  | some y => !y.isEmpty

/-- The year guard of the fuzzy pass (janitorr.py line 366):
`(a_year == b_year) if (a_year and b_year) else True` — the years must be
equal only when *both* records carry a (truthy) year; a pair in which
either year is missing passes the guard. -/
def year_match (ya yb : Option (List Char)) : Bool :=
  if yearTruthy ya && yearTruthy yb then ya == yb else true

/-- The float threshold test `similarity(a, b) >= 0.85` of the fuzzy pass
(janitorr.py line 368), stated integrally so that it evaluates: for
`T = |a|+|b|` and `M` the greedy match total, `2M/T ≥ 85/100 ↔ 85·T ≤ 200·M`
(also at `T = 0`, where the ratio is 1); `simTest_iff_ratio` proves the
equivalence with the rational-valued `similarity`. -/
def simTest (a b : List Char) : Bool :=
  decide (85 * ((pyLower a).length + (pyLower b).length)
    ≤ 200 * matchTotal (pyLower a) (pyLower b))

/-- A filesystem path: the full path (its identity, what `Path` equality
compares) and its final component (`Path.name`). -/
structure FsPath where
  full : List Char
  name : List Char
deriving DecidableEq, Repr

/-- The per-file dict built in pass 1 of `find_movie_duplicates`
(janitorr.py lines 295-304). -/
structure MovieRec where
  path : List Char
  movie_id : List Char
  title : List Char
  year : Option (List Char)
  quality_info : List Char
  score : ℚ
  size_mb : ℚ
  folder_path : FsPath
deriving DecidableEq, Repr

/-- Python dict assignment `d[k] = v` on an association list: overwrite in
place when the key exists, else append. -/
def dictInsert (d : List (List Char × List MovieRec)) (k : List Char)
    (v : List MovieRec) : List (List Char × List MovieRec) :=
  if d.any (fun e => e.1 == k) then d.map (fun e => if e.1 == k then (k, v) else e)
  else d ++ [(k, v)]

/-- `any(file_info in files for files in groups.values())`: the record is a
member of some group's member list (Python `in` compares dicts by value;
records are distinguished by their unique `path`). -/
def claimedIn (groups : List (List Char × List MovieRec)) (r : MovieRec) : Bool :=
  groups.any (fun g => g.2.contains r)

/-- The loop body of pass 2: store a folder's files under `FOLDER: {name}`
when there are more than one. -/
def folderStep (parsed : List MovieRec) (d : List (List Char × List MovieRec))
    (f : FsPath) : List (List Char × List MovieRec) :=
  if 1 < (parsed.filter (fun r => r.folder_path == f)).length then
    dictInsert d (str "FOLDER: " ++ f.name)
      (parsed.filter (fun r => r.folder_path == f))
  else d

/-- Pass 2 of `find_movie_duplicates` (janitorr.py lines 312-321): group the
records by parent folder (`defaultdict`: folders in first-seen order, each
group's files in discovery order) and store every folder holding more than
one file under the key `FOLDER: {folder name}`.  Distinct folders sharing a
name collide on that key and the later assignment overwrites, as in the
source. -/
def folder_duplicates (parsed : List MovieRec) : List (List Char × List MovieRec) :=
  (firstKeys (parsed.map (fun r => r.folder_path))).foldl (folderStep parsed) []

/-- The loop body of pass 3: store an id's files under `TITLE: {movie_id}`
when there are more than one. -/
def titleStep (eligible : List MovieRec) (d : List (List Char × List MovieRec))
    (mid : List Char) : List (List Char × List MovieRec) :=
  if 1 < (eligible.filter (fun r => r.movie_id == mid)).length then
    dictInsert d (str "TITLE: " ++ mid) (eligible.filter (fun r => r.movie_id == mid))
  else d

/-- Pass 3 (janitorr.py lines 323-339): among records not claimed by the
folder pass, group by `movie_id` and store every id with more than one
record under `TITLE: {movie_id}`. -/
def title_duplicates (parsed : List MovieRec)
    (fd : List (List Char × List MovieRec)) : List (List Char × List MovieRec) :=
  (firstKeys ((parsed.filter (fun r => !claimedIn fd r)).map (fun r => r.movie_id))).foldl
    (titleStep (parsed.filter (fun r => !claimedIn fd r))) []

/-- The fuzzy-pass acceptance test of a candidate against the cluster seed
(janitorr.py line 368): similarity at least 0.85 and the year guard. -/
def fuzzyAccept (fi other : MovieRec) : Bool :=
  simTest fi.title other.title && year_match fi.year other.year

/-- The fuzzy group key `FUZZY: {title}[ ({year})]` (janitorr.py lines
373-375). -/
def fuzzyKey (fi : MovieRec) : List Char :=
  str "FUZZY: " ++ fi.title ++
    (match fi.year with
     | some y => if y.isEmpty then [] else str " (" ++ y ++ str ")"
     | none => [])

/-- The inner loop of pass 4 (janitorr.py lines 356-370): scan all parsed
records; skip the seed's own id, ids already processed, and records claimed
by the folder/title passes; an accepted candidate joins the cluster and its
id is marked processed immediately. -/
def fuzzyInner (claimed : List (List Char × List MovieRec)) (fi : MovieRec) :
    List MovieRec → List MovieRec → List (List Char) →
      List MovieRec × List (List Char)
  | [], cluster, processed => (cluster, processed)
  | other :: rest, cluster, processed =>
    if other.movie_id == fi.movie_id then fuzzyInner claimed fi rest cluster processed
    else if processed.contains other.movie_id then fuzzyInner claimed fi rest cluster processed
    else if claimedIn claimed other then fuzzyInner claimed fi rest cluster processed
    else if fuzzyAccept fi other then
      fuzzyInner claimed fi rest (cluster ++ [other]) (processed ++ [other.movie_id])
    else fuzzyInner claimed fi rest cluster processed

/-- The outer loop of pass 4 (janitorr.py lines 341-378): every record not
yet processed and not claimed by the earlier passes seeds a cluster (its id
marked processed before the inner scan); clusters of size at least 2 are
stored under the fuzzy key. -/
def fuzzyOuter (claimed : List (List Char × List MovieRec)) (parsed : List MovieRec) :
    List MovieRec → List (List Char × List MovieRec) → List (List Char) →
      List (List Char × List MovieRec)
  | [], groups, _ => groups
  | fi :: rest, groups, processed =>
    if processed.contains fi.movie_id then fuzzyOuter claimed parsed rest groups processed
    else if claimedIn claimed fi then fuzzyOuter claimed parsed rest groups processed
    else if 1 < (fuzzyInner claimed fi parsed [fi] (processed ++ [fi.movie_id])).1.length then
      fuzzyOuter claimed parsed rest
        (dictInsert groups (fuzzyKey fi)
          (fuzzyInner claimed fi parsed [fi] (processed ++ [fi.movie_id])).1)
        (fuzzyInner claimed fi parsed [fi] (processed ++ [fi.movie_id])).2
    else fuzzyOuter claimed parsed rest groups
      (fuzzyInner claimed fi parsed [fi] (processed ++ [fi.movie_id])).2

/-- `find_movie_duplicates` (janitorr.py lines 262-390) over the parsed
record set (the scanning, size/extras filtering and per-file parsing of
pass 1 are the excluded filesystem collaborators feeding `parsed`): the
folder, title and — when enabled — fuzzy passes, merged into one dict.
The merge `{**folder, **title, **fuzzy}` cannot collide across the passes
because each pass prefixes its keys differently, so it is concatenation. -/
def find_movie_duplicates (parsed : List MovieRec) (fuzzy_matching : Bool) :
    List (List Char × List MovieRec) :=
  let fd := folder_duplicates parsed
  let td := title_duplicates parsed fd
  let fz := if fuzzy_matching then fuzzyOuter (fd ++ td) parsed parsed [] [] else []
  fd ++ td ++ fz

/-- Two duplicate groups share no member record. -/
def groupsDisj (g1 g2 : List Char × List MovieRec) : Prop :=
  ∀ r, r ∈ g1.2 → r ∉ g2.2

/-- Two duplicate groups carry different dict keys. -/
def keysDiffer (g1 g2 : List Char × List MovieRec) : Prop := g1.1 ≠ g2.1

/-- The sort step of the Selection Policy (janitorr.py lines 431 and 579):
`files.sort(key=lambda x: x['score'])`.  Python's sort is stable, and a
stable sort is extensionally unique; it is modelled by insertion sort. -/
def sortByScore (files : List MovieRec) : List MovieRec :=
  List.insertionSort (fun a b => a.score ≤ b.score) files

instance : IsTotal MovieRec (fun a b => a.score ≤ b.score) :=
  ⟨fun a b => le_total a.score b.score⟩

instance : IsTrans MovieRec (fun a b => a.score ≤ b.score) :=
  ⟨fun _ _ _ h1 h2 => le_trans h1 h2⟩

/-- The kept record of the Selection Policy: `files[0]` of the sorted group
in reverse mode, `files[-1]` otherwise (janitorr.py lines 433-439 and
581-589); `none` on an empty group, where the source would raise (groups
have at least two members by construction). -/
def selectKeep (files : List MovieRec) (reverse_mode : Bool) : Option MovieRec :=
  if reverse_mode then (sortByScore files).head? else (sortByScore files).getLast?

/-- The deletion candidates of the Selection Policy: `files[1:]` of the
sorted group in reverse mode, `files[:-1]` otherwise. -/
def selectDelete (files : List MovieRec) (reverse_mode : Bool) : List MovieRec :=
  if reverse_mode then (sortByScore files).tail else (sortByScore files).dropLast

/-- A concrete movie record without a year. -/
def movieRecA : MovieRec :=
  { path := str "/library/m1/Matrix.mkv", movie_id := str "matrix",
    title := str "matrix", year := none, quality_info := [],
    score := 0, size_mb := 0, folder_path := ⟨str "/library/m1", str "m1"⟩ }

/-- A concrete movie record with the same title and a year. -/
def movieRecB : MovieRec :=
  { path := str "/library/m2/Matrix.1999.mkv", movie_id := str "matrix (1999)",
    title := str "matrix", year := some (str "1999"), quality_info := [],
    score := 0, size_mb := 0, folder_path := ⟨str "/library/m2", str "m2"⟩ }

/-- A concrete movie record with score 1. -/
def movieRecC : MovieRec :=
  { path := str "/library/m3/Up.720p.mkv", movie_id := str "up",
    title := str "up", year := none, quality_info := str "720p",
    score := 1, size_mb := 0, folder_path := ⟨str "/library/m3", str "m3"⟩ }

/-- A concrete movie record with score 2. -/
def movieRecD : MovieRec :=
  { path := str "/library/m4/Up.1080p.mkv", movie_id := str "up",
    title := str "up", year := none, quality_info := str "1080p",
    score := 2, size_mb := 0, folder_path := ⟨str "/library/m4", str "m4"⟩ }

/-- A concrete TV file exercising the TV pipeline. -/
def tvFileA : TVFile := ⟨1, str "Show.S01E01.720p", 0⟩

/-- A second copy of the same episode in a different encoding. -/
def tvFileB : TVFile := ⟨2, str "Show.S01E01.1080p", 0⟩

/-- The record parsed from `tvFileA`. -/
def tvRecA : TVRec := ⟨1, str "show", str "S01E01", str ".720p", 4, 0, false⟩

/-- The record parsed from `tvFileB`. -/
def tvRecB : TVRec := ⟨2, str "show", str "S01E01", str ".1080p", 5, 0, false⟩

/-- Modelled from the spec's wording: the fragments obtained by splitting on
separator characters, empty fragments dropped. -/
def specWords (s : List Char) : List (List Char) :=
  (s.splitOnP (fun c => isSepChar c)).filter (fun w => !w.isEmpty)

/-- Joining fragments with single spaces. -/
def joinWords : List (List Char) → List Char
  | [] => []
  | [w] => w
  | w :: ws => w ++ ' ' :: joinWords ws

/-- Modelled from the spec's wording (as amended): lower-case, strip a
leading article *when it is followed by whitespace*, split on separator
runs and re-join the nonempty fragments with single spaces, then remove the
remaining non-alphanumeric characters (keeping the joining spaces). -/
def specNormalize (title : List Char) : List Char :=
  (joinWords (specWords (stripArticle (pyLower title)))).filter
    (fun c => c.isAlphanum || c == ' ')

/-- Modelled from the claim's words "any leading article the/a/an stripped":
one alternative, stripping `art` whenever it is a whole leading token, i.e.
followed by the end or by a non-word character. -/
def claimArticleAt (art s : List Char) : Option (List Char) :=
  if art.isPrefixOf s then
    match s.drop art.length with
    | [] => some []
    | c :: t => if isWordChar c then none else some (c :: t)
  else none

/-- Modelled from the claim's words: strip any leading article token. -/
def claimStripArticle (s : List Char) : List Char :=
  match claimArticleAt (str "the") s with
  | some r => r
  | none =>
    match claimArticleAt (str "a") s with
    | some r => r
    | none =>
      match claimArticleAt (str "an") s with
      | some r => r
      | none => s

/-- Modelled from the claim's words: normalization under the claim's strict
reading, in which any leading article token is stripped (not only a
whitespace-separated one). -/
def claimNormalize (title : List Char) : List Char :=
  (stripWS (squeeze (claimStripArticle (pyLower title)))).filter
    (fun c => isWordChar c || isSpaceChar c)

/-!  ## Theorems  -/

/-- The inner scan of `findLongestMatch` keeps the running best when no
candidate strictly improves on it. -/
theorem innerScan_keep (a b : List Char) (i : ℕ) :
    ∀ (js : List ℕ) (best : ℕ × ℕ × ℕ),
      (∀ j ∈ js, commonLen (a.drop i) (b.drop j) ≤ best.2.2) →
      js.foldl
        (fun best j =>
          if best.2.2 < commonLen (a.drop i) (b.drop j) then
            (i, j, commonLen (a.drop i) (b.drop j))
          else best)
        best = best := by
  intro js
  induction js with
  | nil => intro best _; rfl
  | cons j t ih =>
    intro best h
    have hj : ¬ best.2.2 < commonLen (a.drop i) (b.drop j) :=
      not_lt.mpr (h j (by simp))
    simp only [List.foldl_cons, if_neg hj]
    exact ih best fun j' hj' => h j' (by simp [hj'])

/-- The outer scan of `findLongestMatch` keeps the running best when no
candidate strictly improves on it. -/
theorem outerScan_keep (a b : List Char) (js : List ℕ) :
    ∀ (is : List ℕ) (best : ℕ × ℕ × ℕ),
      (∀ i ∈ is, ∀ j, commonLen (a.drop i) (b.drop j) ≤ best.2.2) →
      is.foldl
        (fun best i =>
          js.foldl
            (fun best j =>
              if best.2.2 < commonLen (a.drop i) (b.drop j) then
                (i, j, commonLen (a.drop i) (b.drop j))
              else best)
            best)
        best = best := by
  intro is
  induction is with
  | nil => intro best _; rfl
  | cons i t ih =>
    intro best h
    rw [List.foldl_cons, innerScan_keep a b i _ best fun j _ => h i (by simp) j]
    exact ih best fun i' hi' => h i' (by simp [hi'])

/-- Common-prefix length is bounded by the length of either list. -/
theorem commonLen_le_left : ∀ x y : List Char, commonLen x y ≤ x.length := by
  intro x
  induction x with
  | nil => intro y; cases y <;> simp [commonLen]
  | cons c t ih =>
    intro y
    cases y with
    | nil => simp [commonLen]
    | cons d u =>
      by_cases h : c == d
      · simpa [commonLen, h] using ih u
      · simp [commonLen, h]

/-- A list matched against itself has itself as common prefix. -/
theorem commonLen_self : ∀ x : List Char, commonLen x x = x.length := by
  intro x
  induction x with
  | nil => rfl
  | cons c t ih => simp [commonLen, ih]

/-- On a nonempty list matched against itself, the greedy scan returns the
whole list as the longest block. -/
theorem findLongestMatch_self (x : List Char) (hx : x ≠ []) :
    findLongestMatch x x = (0, 0, x.length) := by
  obtain ⟨n, hn⟩ : ∃ n, x.length = n + 1 := by
    cases x with
    | nil => exact absurd rfl hx
    | cons c t => exact ⟨t.length, rfl⟩
  have hbound : ∀ i j, commonLen (x.drop i) (x.drop j) ≤ x.length := fun i j =>
    le_trans (commonLen_le_left _ _) (by simp [List.length_drop])
  rw [hn] at hbound
  unfold findLongestMatch
  rw [hn, List.range_succ_eq_map, List.foldl_cons, List.foldl_cons]
  have h0 : commonLen (x.drop 0) (x.drop 0) = n + 1 := by
    simpa [hn] using commonLen_self x
  rw [h0, if_pos (show (0, 0, 0).2.2 < n + 1 by simp)]
  rw [innerScan_keep x x 0 _ _ (fun j _ => hbound 0 j)]
  rw [outerScan_keep x x _ _ _ (fun i _ j => hbound i j)]

/-- `matchTotalF` on two empty lists is 0 for any fuel. -/
theorem matchTotalF_nil : ∀ fuel, matchTotalF fuel [] [] = 0 := by
  intro fuel
  cases fuel with
  | zero => rfl
  | succ f => rfl

/-- The total matching-block size of a list against itself is its length. -/
theorem matchTotal_self (x : List Char) : matchTotal x x = x.length := by
  cases hx : x with
  | nil => rfl
  | cons c t =>
    rw [← hx]
    have hne : x ≠ [] := by simp [hx]
    have hlen : x.length + x.length = (x.length + x.length - 1) + 1 := by
      have : 0 < x.length := by simp [hx]
      omega
    unfold matchTotal
    rw [hlen]
    unfold matchTotalF
    rw [findLongestMatch_self x hne]
    have hklen : x.length ≠ 0 := by simp [hx]
    simp only [if_neg hklen]
    simp [List.take_zero, Nat.zero_add, List.drop_length, matchTotalF_nil]

/-- The ratio of a list against itself is 1. -/
theorem ratio_self (x : List Char) : ratio x x = 1 := by
  unfold ratio
  by_cases h : x.length + x.length = 0
  · rw [if_pos h]
  · rw [if_neg h, matchTotal_self]
    rw [div_eq_one_iff_eq (by exact_mod_cast h)]
    push_cast
    ring

/-- C6 (counterexample): the fuzzy similarity function is not symmetric.
With `a = "ab"` and `b = "bacb"`, the greedy matcher finds blocks of total
size 2 in one direction (`similarity = 2/3`) but only 1 in the other
(`similarity = 1/3`). -/
theorem C6_counterexample :
    similarity (str "ab") (str "bacb") ≠ similarity (str "bacb") (str "ab") := by
  have l1 : pyLower (str "ab") = str "ab" := by decide
  have l2 : pyLower (str "bacb") = str "bacb" := by decide
  have m1 : matchTotal (str "ab") (str "bacb") = 2 := by decide
  have m2 : matchTotal (str "bacb") (str "ab") = 1 := by decide
  have len1 : (str "ab").length = 2 := by decide
  have len2 : (str "bacb").length = 4 := by decide
  unfold similarity ratio
  rw [l1, l2, m1, m2, len1, len2]
  norm_num

/-- C6 (amended): `similarity` is not symmetric in general; it is symmetric
whenever the two lower-cased strings coincide, in which case both directions
equal 1. -/
theorem C6_amended_symmetric_on_equal (a b : List Char) (h : pyLower a = pyLower b) :
    similarity a b = similarity b a ∧ similarity a b = 1 := by
  unfold similarity
  rw [h]
  exact ⟨rfl, ratio_self _⟩

/-- Witness for C6 (amended) at `a = "AB"`, `b = "ab"`. -/
theorem C6_amended_witness :
    pyLower (str "AB") = pyLower (str "ab") ∧
      (similarity (str "AB") (str "ab") = similarity (str "ab") (str "AB") ∧
        similarity (str "AB") (str "ab") = 1) :=
  ⟨by decide, C6_amended_symmetric_on_equal (str "AB") (str "ab") (by decide)⟩

/-- The conditional-sum fold used by the scorer equals the sum over the
filtered lexicon. -/
theorem foldl_cond_add_eq_sum (p : List Char × Int → Bool) :
    ∀ (l : List (List Char × Int)) (acc : Int),
      l.foldl (fun a kv => if p kv then a + kv.2 else a) acc
        = acc + ((l.filter p).map (fun kv => kv.2)).sum := by
  intro l
  induction l with
  | nil => intro acc; simp
  | cons kv t ih =>
    intro acc
    by_cases h : p kv
    · simp [List.foldl_cons, List.filter_cons, h, ih, add_assoc]
    · simp [List.foldl_cons, List.filter_cons, h, ih]

/-- The scorer's fold stays nonnegative when all weights are nonnegative. -/
theorem foldl_cond_add_nonneg (p : List Char × Int → Bool) :
    ∀ (l : List (List Char × Int)) (acc : Int), (∀ kv ∈ l, 0 ≤ kv.2) → 0 ≤ acc →
      0 ≤ l.foldl (fun a kv => if p kv then a + kv.2 else a) acc := by
  intro l
  induction l with
  | nil => intro acc _ h0; simpa using h0
  | cons kv t ih =>
    intro acc hall h0
    have hkv : 0 ≤ kv.2 := hall kv (by simp)
    have hrest : ∀ e ∈ t, 0 ≤ e.2 := fun e he => hall e (by simp [he])
    by_cases h : p kv
    · simpa [List.foldl_cons, h] using ih (acc + kv.2) hrest (by omega)
    · simpa [List.foldl_cons, h] using ih acc hrest h0

/-- C5: for every quality fragment, size and `prefer_smaller` flag, the score
equals the sum of the lexicon weights of every keyword occurring as a
substring of the lower-cased fragment, minus — exactly when `prefer_smaller`
is set and the size is positive — the penalty `min 2 (size / 10000)`; in
particular a fragment containing no lexicon keyword scores the
penalty-adjusted 0. -/
theorem C5_quality_score_is_filtered_sum (q : List Char) (s : ℚ) (ps : Bool) :
    get_quality_score q s ps =
      (((QUALITY_SCORES.filter fun kv => containsSub kv.1 (pyLower q)).map
          (fun kv => ((kv.2 : Int) : ℚ))).sum)
        - (if ps = true ∧ 0 < s then min 2 (s / 10000) else 0) := by
  have hbase : ((baseScore q : Int) : ℚ)
      = ((QUALITY_SCORES.filter fun kv => containsSub kv.1 (pyLower q)).map
          (fun kv => ((kv.2 : Int) : ℚ))).sum := by
    unfold baseScore
    rw [foldl_cond_add_eq_sum, zero_add, Int.cast_list_sum, List.map_map]
    rfl
  unfold get_quality_score
  by_cases h : ps = true ∧ 0 < s
  · rw [if_pos h, if_pos h, hbase]
  · rw [if_neg h, if_neg h, hbase, sub_zero]

/-- C10: with `prefer_smaller = false` the quality score does not depend on
the supplied file size, and its value is a nonnegative integer (every lexicon
weight is nonnegative). -/
theorem C10_score_size_independent (q : List Char) (s1 s2 : ℚ) :
    get_quality_score q s1 false = get_quality_score q s2 false ∧
      ∃ n : ℕ, get_quality_score q s1 false = (n : ℚ) := by
  have hb : ∀ s : ℚ, get_quality_score q s false = ((baseScore q : Int) : ℚ) := by
    intro s
    unfold get_quality_score
    simp
  have hnn : 0 ≤ baseScore q :=
    foldl_cond_add_nonneg _ QUALITY_SCORES 0 (by decide) le_rfl
  refine ⟨by rw [hb, hb], ⟨(baseScore q).toNat, ?_⟩⟩
  rw [hb]
  norm_cast
  omega

/-- Whitespace characters are separator characters. -/
theorem isSep_of_isSpace {c : Char} (h : isSpaceChar c = true) : isSepChar c = true := by
  simp [isSepChar, h]

/-- A non-separator character is not whitespace. -/
theorem not_space_of_not_sep {c : Char} (h : isSepChar c = false) : isSpaceChar c = false := by
  by_cases hs : isSpaceChar c = true
  · rw [isSep_of_isSpace hs] at h; cases h
  · simpa using hs

/-- Resuming the collapse inside a separator run is the same as collapsing
from the first non-separator character on. -/
theorem squeezeAux_true_eq : ∀ t : List Char,
    squeezeAux true t = squeeze (t.dropWhile isSepChar) := by
  intro t
  induction t with
  | nil => rfl
  | cons c u ih =>
    by_cases h : isSepChar c
    · simp [squeezeAux, h, ih, List.dropWhile_cons]
    · simp [squeezeAux, h, List.dropWhile_cons, squeeze]

/-- The collapse copies a maximal run of non-separator characters verbatim. -/
theorem squeezeAux_false_word : ∀ t : List Char,
    squeezeAux false t =
      t.takeWhile (fun c => !isSepChar c) ++
        squeezeAux false (t.dropWhile (fun c => !isSepChar c)) := by
  intro t
  induction t with
  | nil => rfl
  | cons c u ih =>
    by_cases h : isSepChar c
    · simp [List.takeWhile_cons, List.dropWhile_cons, h]
    · simp only [List.takeWhile_cons, List.dropWhile_cons, h, Bool.not_false, if_true]
      simpa [squeezeAux, h] using ih

/-- The head of `dropWhile isSepChar` is not a separator. -/
theorem dropWhile_sep_head : ∀ t : List Char,
    t.dropWhile isSepChar = [] ∨
      ∃ d v, t.dropWhile isSepChar = d :: v ∧ isSepChar d = false := by
  intro t
  induction t with
  | nil => left; rfl
  | cons c u ih =>
    by_cases h : isSepChar c
    · simpa [List.dropWhile_cons, h] using ih
    · right; exact ⟨c, u, by simp [List.dropWhile_cons, h], by simpa using h⟩

/-- Head decomposition of `splitOnP`: the first fragment is the maximal run
of non-separator elements, and the remaining fragments are those of the text
after the first separator. -/
theorem splitOnP_eq_takeWhile_cons : ∀ t : List Char,
    t.splitOnP (fun c => isSepChar c) =
      t.takeWhile (fun c => !isSepChar c) ::
        (match t.dropWhile (fun c => !isSepChar c) with
         | [] => []
         | _ :: u => u.splitOnP (fun c => isSepChar c)) := by
  intro t
  induction t with
  | nil => simp [List.splitOnP_nil]
  | cons c u ih =>
    by_cases h : isSepChar c
    · simp [List.splitOnP_cons, h, List.takeWhile_cons, List.dropWhile_cons]
    · rw [List.splitOnP_cons, if_neg (by simpa using h), ih]
      simp [List.takeWhile_cons, List.dropWhile_cons, h]

/-- `specWords` of the empty string. -/
theorem specWords_nil : specWords [] = [] := by
  simp [specWords, List.splitOnP_nil]

/-- A leading separator does not contribute a fragment. -/
theorem specWords_sep_cons {c : Char} (t : List Char) (h : isSepChar c = true) :
    specWords (c :: t) = specWords t := by
  simp [specWords, List.splitOnP_cons, h]

/-- Dropping a leading separator run does not change the fragments. -/
theorem specWords_dropWhile : ∀ t : List Char,
    specWords (t.dropWhile isSepChar) = specWords t := by
  intro t
  induction t with
  | nil => rfl
  | cons c u ih =>
    by_cases h : isSepChar c
    · rw [List.dropWhile_cons, if_pos h, ih, specWords_sep_cons u h]
    · rw [List.dropWhile_cons, if_neg (by simpa using h)]

/-- The head of `dropWhile (not separator)` is a separator. -/
theorem dropWhile_nonsep_head : ∀ (t : List Char) (d : Char) (u : List Char),
    t.dropWhile (fun x => !isSepChar x) = d :: u → isSepChar d = true := by
  intro t
  induction t with
  | nil => intro d u h; cases h
  | cons c v ih =>
    intro d u h
    rw [List.dropWhile_cons] at h
    by_cases hc : isSepChar c
    · rw [if_neg (by simp [hc])] at h
      cases h
      exact hc
    · rw [if_pos (by simp [hc])] at h
      exact ih d u h

/-- Fragment decomposition for a string starting with a non-separator. -/
theorem specWords_nonsep_head {c : Char} (t : List Char) (h : isSepChar c = false) :
    specWords (c :: t) =
      (c :: t.takeWhile (fun x => !isSepChar x)) ::
        specWords (t.dropWhile (fun x => !isSepChar x)) := by
  unfold specWords
  rw [List.splitOnP_cons, if_neg (by simp [h]), splitOnP_eq_takeWhile_cons t]
  cases hdw : t.dropWhile (fun x => !isSepChar x) with
  | nil => simp [List.splitOnP_nil]
  | cons d u =>
    have hd : isSepChar d = true := dropWhile_nonsep_head t d u hdw
    simp [List.modifyHead, List.filter, List.splitOnP_cons, hd]

/-- `strip` is the trailing strip of the leading strip. -/
theorem stripWS_eq_rstrip_lstrip (s : List Char) :
    stripWS s = rstripWS (s.dropWhile isSpaceChar) := rfl

/-- Trailing strip across an append. -/
theorem rstripWS_append (xs ys : List Char) :
    rstripWS (xs ++ ys) = if rstripWS ys = [] then rstripWS xs else xs ++ rstripWS ys := by
  unfold rstripWS
  rw [List.reverse_append, List.dropWhile_append]
  by_cases he : (ys.reverse.dropWhile isSpaceChar).isEmpty = true
  · rw [if_pos he, if_pos]
    simpa [List.isEmpty_iff] using he
  · rw [if_neg he, if_neg]
    · rw [List.reverse_append, List.reverse_reverse]
    · simpa [List.isEmpty_iff] using he

/-- Trailing strip keeps a non-whitespace head. -/
theorem rstripWS_cons_nonspace {c : Char} (v : List Char) (h : isSpaceChar c = false) :
    rstripWS (c :: v) = c :: rstripWS v := by
  have h1 : rstripWS [c] = [c] := by
    unfold rstripWS
    simp [List.dropWhile_cons, h]
  have := rstripWS_append [c] v
  by_cases hv : rstripWS v = []
  · simpa [hv, h1] using this
  · simpa [hv, h1] using this

/-- Trailing strip is the identity on a list without whitespace. -/
theorem rstripWS_of_no_space : ∀ w : List Char, (∀ c ∈ w, isSpaceChar c = false) →
    rstripWS w = w := by
  intro w
  induction w with
  | nil => intro _; rfl
  | cons c v ih =>
    intro h
    rw [rstripWS_cons_nonspace v (h c (by simp))]
    rw [ih fun x hx => h x (by simp [hx])]

/-- Joining a single fragment. -/
theorem joinWords_single (w : List Char) : joinWords [w] = w := rfl

/-- Joining at least two fragments. -/
theorem joinWords_cons_cons (w x : List Char) (xs : List (List Char)) :
    joinWords (w :: x :: xs) = w ++ ' ' :: joinWords (x :: xs) := rfl

/-- A leading non-separator survives the collapse. -/
theorem squeeze_cons_nonsep {c : Char} (t : List Char) (h : isSepChar c = false) :
    squeeze (c :: t) = c :: squeezeAux false t := by
  simp [squeeze, squeezeAux, h]

/-- A leading separator collapses to a single space. -/
theorem squeeze_cons_sep {c : Char} (t : List Char) (h : isSepChar c = true) :
    squeeze (c :: t) = ' ' :: squeeze (t.dropWhile isSepChar) := by
  simp [squeeze, squeezeAux, h, squeezeAux_true_eq]

/-- The separator-run collapse followed by `strip` is the same as splitting
on separators and re-joining the nonempty fragments with single spaces
(length-bounded form for the induction). -/
theorem stripWS_squeeze_eq_join_aux : ∀ n : ℕ, ∀ s : List Char, s.length ≤ n →
    stripWS (squeeze s) = joinWords (specWords s) := by
  intro n
  induction n with
  | zero =>
    intro s hs
    have h0 : s = [] := List.length_eq_zero.mp (Nat.le_zero.mp hs)
    subst h0
    rfl
  | succ n ih =>
    intro s hs
    cases s with
    | nil => rfl
    | cons c t =>
      by_cases hc : isSepChar c
      · -- leading separator run: both sides ignore it
        rw [squeeze_cons_sep t hc]
        have hu : (t.dropWhile isSepChar).length ≤ n := by
          have h1 := (List.dropWhile_sublist (l := t) isSepChar).length_le
          have h2 : (c :: t).length ≤ n + 1 := hs
          simp only [List.length_cons] at h2
          omega
        have hz : stripWS (' ' :: squeeze (t.dropWhile isSepChar))
            = stripWS (squeeze (t.dropWhile isSepChar)) := by
          rw [stripWS_eq_rstrip_lstrip, stripWS_eq_rstrip_lstrip,
            List.dropWhile_cons, if_pos (by decide)]
        rw [hz, ih _ hu, specWords_dropWhile, specWords_sep_cons t hc]
      · -- leading word
        have hcb : isSepChar c = false := by simpa using hc
        have hsq : squeeze (c :: t) =
            (c :: t.takeWhile (fun x => !isSepChar x)) ++
              squeezeAux false (t.dropWhile (fun x => !isSepChar x)) := by
          rw [squeeze, squeezeAux_false_word]
          simp [List.takeWhile_cons, List.dropWhile_cons, hcb]
        have hWns : ∀ x ∈ c :: t.takeWhile (fun x => !isSepChar x), isSepChar x = false := by
          intro x hx
          rcases List.mem_cons.mp hx with h | h
          · rw [h]; exact hcb
          · simpa using List.mem_takeWhile_imp h
        have hWsp : ∀ x ∈ c :: t.takeWhile (fun x => !isSepChar x), isSpaceChar x = false :=
          fun x hx => not_space_of_not_sep (hWns x hx)
        have hlW : stripWS ((c :: t.takeWhile (fun x => !isSepChar x)) ++
            squeezeAux false (t.dropWhile (fun x => !isSepChar x)))
            = rstripWS ((c :: t.takeWhile (fun x => !isSepChar x)) ++
              squeezeAux false (t.dropWhile (fun x => !isSepChar x))) := by
          rw [stripWS_eq_rstrip_lstrip, List.cons_append, List.dropWhile_cons,
            if_neg (by simp [hWsp c (by simp)])]
        rw [hsq, hlW, specWords_nonsep_head t hcb]
        cases hr : t.dropWhile (fun x => !isSepChar x) with
        | nil =>
          rw [squeezeAux, List.append_nil, specWords_nil, joinWords_single]
          exact rstripWS_of_no_space _ hWsp
        | cons d v =>
          have hd : isSepChar d = true := dropWhile_nonsep_head t d v hr
          have hsq2 : squeezeAux false (d :: v) = ' ' :: squeeze (v.dropWhile isSepChar) := by
            simpa [squeeze] using squeeze_cons_sep v hd
          have hlenv : (v.dropWhile isSepChar).length ≤ n := by
            have h1 := (List.dropWhile_sublist (l := v) isSepChar).length_le
            have h2 := (List.dropWhile_sublist (l := t) (fun x => !isSepChar x)).length_le
            rw [hr] at h2
            have h3 : (c :: t).length ≤ n + 1 := hs
            simp only [List.length_cons] at h2 h3
            omega
          have hspecv : specWords (d :: v) = specWords (v.dropWhile isSepChar) := by
            rw [specWords_sep_cons v hd, specWords_dropWhile]
          rw [hsq2, hspecv]
          rcases dropWhile_sep_head v with hnil | ⟨e, u, heu, hens⟩
          · -- nothing after the separator run: the trailing space is stripped
            rw [hnil, specWords_nil, joinWords_single]
            have : rstripWS (' ' :: squeeze ([] : List Char)) = [] := by decide
            rw [rstripWS_append, this, if_pos rfl]
            exact rstripWS_of_no_space _ hWsp
          · -- a further word follows: the single space joins the fragments
            have hesp : isSpaceChar e = false := not_space_of_not_sep hens
            have hsqu : squeeze (v.dropWhile isSepChar) = e :: squeezeAux false u := by
              rw [heu, squeeze_cons_nonsep u hens]
            have hrne : rstripWS (squeeze (v.dropWhile isSepChar)) ≠ [] := by
              rw [hsqu, rstripWS_cons_nonspace _ hesp]
              simp
            have hstr : rstripWS (squeeze (v.dropWhile isSepChar))
                = stripWS (squeeze (v.dropWhile isSepChar)) := by
              rw [stripWS_eq_rstrip_lstrip, hsqu, List.dropWhile_cons, if_neg (by simp [hesp])]
            have hspace : rstripWS (' ' :: squeeze (v.dropWhile isSepChar))
                = ' ' :: rstripWS (squeeze (v.dropWhile isSepChar)) := by
              have h5 := rstripWS_append [' '] (squeeze (v.dropWhile isSepChar))
              rw [if_neg hrne] at h5
              simpa using h5
            have hif : (' ' :: rstripWS (squeeze (v.dropWhile isSepChar))) ≠ [] := by simp
            rw [rstripWS_append, hspace, if_neg hif, hstr, ih _ hlenv]
            have hwne : specWords (v.dropWhile isSepChar) ≠ [] := by
              rw [heu, specWords_nonsep_head u hens]
              simp
            cases hws : specWords (v.dropWhile isSepChar) with
            | nil => exact absurd hws hwne
            | cons x xs => rw [joinWords_cons_cons, List.cons_append]

/-- The collapse-and-strip equals split-and-join. -/
theorem stripWS_squeeze_eq_join (s : List Char) :
    stripWS (squeeze s) = joinWords (specWords s) :=
  stripWS_squeeze_eq_join_aux s.length s le_rfl

/-- Every character of a join is a joining space or comes from a fragment. -/
theorem mem_joinWords : ∀ (ws : List (List Char)) (c : Char), c ∈ joinWords ws →
    c = ' ' ∨ ∃ w ∈ ws, c ∈ w := by
  intro ws
  induction ws with
  | nil => intro c hc; cases hc
  | cons w ws ih =>
    intro c hc
    cases ws with
    | nil =>
      right
      exact ⟨w, by simp, by simpa [joinWords_single] using hc⟩
    | cons x xs =>
      rw [joinWords_cons_cons] at hc
      rcases List.mem_append.mp hc with h | h
      · right; exact ⟨w, by simp, h⟩
      · rcases List.mem_cons.mp h with h1 | h1
        · left; exact h1
        · rcases ih c h1 with h2 | ⟨w1, hw1, hcw1⟩
          · left; exact h2
          · right; exact ⟨w1, by simp [hw1], hcw1⟩

/-- Characters of split fragments are non-separators (length-bounded form). -/
theorem mem_specWords_not_sep_aux : ∀ n : ℕ, ∀ s : List Char, s.length ≤ n →
    ∀ w ∈ specWords s, ∀ c ∈ w, isSepChar c = false := by
  intro n
  induction n with
  | zero =>
    intro s hs
    have h0 : s = [] := List.length_eq_zero.mp (Nat.le_zero.mp hs)
    subst h0
    rw [specWords_nil]
    intro w hw
    cases hw
  | succ n ih =>
    intro s hs
    cases s with
    | nil =>
      rw [specWords_nil]
      intro w hw
      cases hw
    | cons a t =>
      by_cases ha : isSepChar a
      · rw [specWords_sep_cons t ha]
        exact ih t (by simpa using Nat.lt_succ_iff.mp (Nat.lt_of_lt_of_le (by simp) hs))
      · have hab : isSepChar a = false := by simpa using ha
        rw [specWords_nonsep_head t hab]
        intro w hw
        rcases List.mem_cons.mp hw with h1 | h1
        · subst h1
          intro c hc
          rcases List.mem_cons.mp hc with h2 | h2
          · rw [h2]; exact hab
          · simpa using List.mem_takeWhile_imp h2
        · have hlen : (t.dropWhile (fun x => !isSepChar x)).length ≤ n := by
            have h2 := (List.dropWhile_sublist (l := t) (fun x => !isSepChar x)).length_le
            have h3 : (a :: t).length ≤ n + 1 := hs
            simp only [List.length_cons] at h3
            omega
          exact ih _ hlen w h1

/-- Characters of split fragments are non-separators. -/
theorem mem_specWords_not_sep (s : List Char) (w : List Char) (hw : w ∈ specWords s) :
    ∀ c ∈ w, isSepChar c = false :=
  mem_specWords_not_sep_aux s.length s le_rfl w hw

/-- The source's normalization equals the specification's pipeline (with the
article rule amended to whitespace-separated articles). -/
theorem normalize_title_eq_specNormalize (t : List Char) :
    normalize_title t = specNormalize t := by
  unfold normalize_title specNormalize
  rw [stripWS_squeeze_eq_join]
  apply List.filter_congr
  intro c hc
  rcases mem_joinWords _ c hc with h | ⟨w, hw, hcw⟩
  · subst h; decide
  · have hns : isSepChar c = false := mem_specWords_not_sep _ w hw c hcw
    by_cases h5 : c = '_'
    · subst h5; exact absurd hns (by decide)
    by_cases h6 : c = ' '
    · subst h6; exact absurd hns (by decide)
    have hsp : isSpaceChar c = false := not_space_of_not_sep hns
    have h7 : (c == '_') = false := beq_eq_false_iff_ne.mpr h5
    have h8 : (c == ' ') = false := beq_eq_false_iff_ne.mpr h6
    simp [isWordChar, hsp, h7, h8]

/-- After a word character, no year match can start. -/
theorem yearAt_word_prev {w : Char} (h : isWordChar w = true) (l : List Char) :
    yearAt (some w) l = false := by
  simp [yearAt, h]

/-- Digits are word characters. -/
theorem isWordChar_of_isDigit {c : Char} (h : c.isDigit = true) : isWordChar c = true := by
  simp [isWordChar, Char.isAlphanum, h]

/-- A year match cannot start at a non-word character. -/
theorem yearAt_nonword_head {d : Char} (p : Option Char) (l : List Char)
    (h : isWordChar d = false) : yearAt p (d :: l) = false := by
  have h1 : (d == '1') = false := by
    by_cases hd : d = '1'
    · subst hd; cases h
    · exact beq_eq_false_iff_ne.mpr hd
  have h2 : (d == '2') = false := by
    by_cases hd : d = '2'
    · subst hd; cases h
    · exact beq_eq_false_iff_ne.mpr hd
  rcases l with _ | ⟨a, _ | ⟨b, _ | ⟨e, r⟩⟩⟩ <;> simp [yearAt, h1, h2]

/-- When no match starts here, the scan keeps the character. -/
theorem removeYears_cons_of_not {p : Option Char} {c : Char} {t : List Char}
    (h : yearAt p (c :: t) = false) :
    removeYears p (c :: t) = c :: removeYears (some c) t := by
  rcases t with _ | ⟨x, _ | ⟨y, _ | ⟨z, w⟩⟩⟩ <;> simp [removeYears, h]

/-- If the two-digit prefix test fails, no year match starts here. -/
theorem yearAt_pat_false {c x : Char} (p : Option Char) (l : List Char)
    (h : ((c == '1' && x == '9') || (c == '2' && x == '0')) = false) :
    yearAt p (c :: x :: l) = false := by
  rcases l with _ | ⟨a, _ | ⟨b, r⟩⟩ <;> simp [yearAt, h]

/-- If the third character is not a digit, no year match starts here. -/
theorem yearAt_d3_false {y : Char} (p : Option Char) (c x : Char) (l : List Char)
    (h : y.isDigit = false) : yearAt p (c :: x :: y :: l) = false := by
  rcases l with _ | ⟨a, r⟩ <;> simp [yearAt, h]

/-- If the fourth character is not a digit, no year match starts here. -/
theorem yearAt_d4_false {z : Char} (p : Option Char) (c x y : Char) (l : List Char)
    (h : z.isDigit = false) : yearAt p (c :: x :: y :: z :: l) = false := by
  simp [yearAt, h]

/-- Scanning the tail cannot create a new year match at a word character:
the first characters of the scanned tail coincide with the original ones for
as long as the year pattern could examine them. -/
theorem yearAt_removeYears {c : Char} (hcw : isWordChar c = true) :
    ∀ (t : List Char) (p : Option Char),
      yearAt p (c :: removeYears (some c) t) = yearAt p (c :: t) := by
  intro t p
  cases t with
  | nil => rfl
  | cons x u =>
    rw [removeYears_cons_of_not (yearAt_word_prev hcw _)]
    by_cases hpat : ((c == '1' && x == '9') || (c == '2' && x == '0')) = true
    · have hxd : x.isDigit = true := by
        by_cases h9 : x = '9'
        · subst h9; decide
        by_cases h0 : x = '0'
        · subst h0; decide
        rw [beq_eq_false_iff_ne.mpr h9, beq_eq_false_iff_ne.mpr h0] at hpat
        simp at hpat
      have hxw : isWordChar x = true := isWordChar_of_isDigit hxd
      cases u with
      | nil => rfl
      | cons y v =>
        rw [removeYears_cons_of_not (yearAt_word_prev hxw _)]
        by_cases hy : y.isDigit = true
        · have hyw : isWordChar y = true := isWordChar_of_isDigit hy
          cases v with
          | nil => rfl
          | cons z w =>
            rw [removeYears_cons_of_not (yearAt_word_prev hyw _)]
            by_cases hz : z.isDigit = true
            · have hzw : isWordChar z = true := isWordChar_of_isDigit hz
              cases w with
              | nil => rfl
              | cons q w2 =>
                rw [removeYears_cons_of_not (yearAt_word_prev hzw _)]
                rfl
            · rw [yearAt_d4_false p c x y _ (by simpa using hz),
                yearAt_d4_false p c x y _ (by simpa using hz)]
        · rw [yearAt_d3_false p c x _ (by simpa using hy),
            yearAt_d3_false p c x _ (by simpa using hy)]
    · rw [yearAt_pat_false p _ (by simpa using hpat),
        yearAt_pat_false p _ (by simpa using hpat)]

/-- Extraction from a year match of length at least 4: the fourth character
is a digit and the following character, if any, breaks the word run. -/
theorem yearAt_true_parts {p : Option Char} {c x y z : Char} {rest : List Char}
    (h : yearAt p (c :: x :: y :: z :: rest) = true) :
    z.isDigit = true ∧ (rest = [] ∨ ∃ q w, rest = q :: w ∧ isWordChar q = false) := by
  cases rest with
  | nil =>
    simp only [yearAt, Bool.and_eq_true] at h
    obtain ⟨-, ⟨⟨-, hz⟩, -⟩⟩ := h
    exact ⟨hz, Or.inl rfl⟩
  | cons q w =>
    simp only [yearAt, Bool.and_eq_true] at h
    obtain ⟨-, ⟨⟨-, hz⟩, hb⟩⟩ := h
    exact ⟨hz, Or.inr ⟨q, w, rfl, by simpa using hb⟩⟩

/-- After the year substitution has run, no boundary-delimited year token
remains anywhere in the result (length-bounded form). -/
theorem noYearAux_removeYears_aux : ∀ n : ℕ, ∀ s : List Char, s.length ≤ n → ∀ p,
    noYearAux p (removeYears p s) = true := by
  intro n
  induction n with
  | zero =>
    intro s hs p
    have h0 : s = [] := List.length_eq_zero.mp (Nat.le_zero.mp hs)
    subst h0
    rfl
  | succ n ih =>
    intro s hs p
    cases s with
    | nil => rfl
    | cons c t =>
      by_cases hy : yearAt p (c :: t) = true
      · rcases t with _ | ⟨x, _ | ⟨y, _ | ⟨z, rest⟩⟩⟩
        · simp [yearAt] at hy
        · simp [yearAt] at hy
        · simp [yearAt] at hy
        · obtain ⟨hz, hb⟩ := yearAt_true_parts hy
          have hrw : removeYears p (c :: x :: y :: z :: rest)
              = removeYears (some z) rest := by
            simp [removeYears, hy]
          rw [hrw]
          rcases hb with hb | ⟨q, w, hqw, hq⟩
          · subst hb; rfl
          · subst hqw
            rw [removeYears_cons_of_not (yearAt_word_prev (isWordChar_of_isDigit hz) _)]
            have h1 : noYearAux (some q) (removeYears (some q) w) = true := by
              apply ih w _ (some q)
              have : (c :: x :: y :: z :: q :: w).length ≤ n + 1 := hs
              simp only [List.length_cons] at this
              omega
            rw [noYearAux, yearAt_nonword_head p _ hq]
            simpa using h1
      · have hyf : yearAt p (c :: t) = false := by simpa using hy
        rw [removeYears_cons_of_not hyf]
        have h1 : noYearAux (some c) (removeYears (some c) t) = true := by
          apply ih t _ (some c)
          have : (c :: t).length ≤ n + 1 := hs
          simp only [List.length_cons] at this
          omega
        by_cases hcw : isWordChar c = true
        · rw [noYearAux, yearAt_removeYears hcw t p, hyf]
          simpa using h1
        · rw [noYearAux, yearAt_nonword_head p _ (by simpa using hcw)]
          simpa using h1

/-- After the year substitution has run, no boundary-delimited year token
remains anywhere in the result. -/
theorem noYearToken_removeYears (s : List Char) :
    noYearToken (removeYears none s) = true :=
  noYearAux_removeYears_aux s.length s le_rfl none

/-- C9 (counterexample): the claim "normalization produces the lower-cased
text with any leading article stripped ..." is false as stated: a leading
article followed by a separator other than whitespace survives.  On
`"The.Matrix"` the code produces `"the matrix"`, while the claim's reading
(any leading article token stripped) produces `"matrix"`. -/
theorem C9_counterexample :
    normalize_title (str "The.Matrix") ≠ claimNormalize (str "The.Matrix") ∧
      normalize_title (str "The.Matrix") = str "the matrix" ∧
      claimNormalize (str "The.Matrix") = str "matrix" := by
  refine ⟨?_, by decide, by decide⟩
  decide

/-- C9 (amended): normalization lower-cases the text, strips a leading
article *only when it is followed by whitespace*, collapses separator runs
to single spaces (trimming the ends), and removes the remaining
non-alphanumeric characters; the TV series name additionally passes through
the year substitution, after which no boundary-delimited 4-digit year token
remains — e.g. `Breaking.Bad.S01E01...` yields series `breaking bad`, and a
stray year as in `Show.2008.S01E01...` is removed. -/
theorem C9_amended_normalization (t s : List Char) :
    normalize_title t = specNormalize t ∧
      noYearToken (removeYears none s) = true ∧
      (parse_episode_info (str "Breaking.Bad.S01E01.1080p.BluRay.x264-GROUP")).map
          EpisodeInfo.series_name = some (str "breaking bad") ∧
      (parse_episode_info (str "Show.2008.S01E01.720p")).map
          EpisodeInfo.series_name = some (str "show") :=
  ⟨normalize_title_eq_specNormalize t, noYearToken_removeYears s, by decide, by decide⟩

/-- C2: the code does *not* parse the `-E` multi-episode form.  The regex
`[-Ee]` at janitorr.py line 110 is a one-character class, so in
`S02E05-E06` the optional group fails (after `-` it finds `E06`, not
digits) and the match stops at `S02E05`: the file is treated as the single
episode `S02E05` with quality fragment `-E06.720p`.  The multi-episode
rendering `S02E05-E06` is produced only for markers such as `S02E05E06`
or `S02E05-06`, so the parser cannot re-parse its own multi-episode
rendering.  The spec's example (`S02E05-E06` parses to episode id
`S02E05-E06`) is the evident intent. -/
theorem C2_multi_episode_dash_marker_code_eval :
    parse_episode_info (str "Show.S02E05-E06.720p") =
      some { series_name := str "show", episode_id := str "S02E05",
             quality_info := str "-E06.720p", is_multi_episode := false } ∧
    parse_episode_info (str "Show.S02E05E06.720p") =
      some { series_name := str "show", episode_id := str "S02E05-E06",
             quality_info := str ".720p", is_multi_episode := true } := by
  constructor
  · decide
  · decide

/-- The search fails exactly when the pattern matches at no position. -/
theorem epSearch_none_iff : ∀ (s : List Char) (i : ℕ),
    epSearch i s = none ↔ ∀ j < s.length, tryEpMatch (s.drop j) = none := by
  intro s
  induction s with
  | nil => intro i; simp [epSearch]
  | cons c t ih =>
    intro i
    cases hm : tryEpMatch (c :: t) with
    | some m =>
      simp only [epSearch, hm]
      constructor
      · intro h; cases h
      · intro h
        have h0 := h 0 (by simp)
        rw [List.drop_zero] at h0
        rw [h0] at hm
        cases hm
    | none =>
      simp only [epSearch, hm]
      rw [ih (i + 1)]
      constructor
      · intro h j hj
        cases j with
        | zero => simp [hm]
        | succ j => exact h j (by simpa using Nat.succ_lt_succ_iff.mp (by simpa using hj))
      · intro h j hj
        exact h (j + 1) (by simpa using Nat.succ_lt_succ_iff.mpr hj)

/-- C7: `parse_episode_info` returns `none` exactly for stems containing no
season/episode marker, and every member of every TV duplicate group
originates from an input file whose stem parsed successfully — a file whose
stem has no marker is dropped before grouping and never enters a group. -/
theorem C7_unparsed_files_never_grouped (stem : List Char) (files : List TVFile)
    (ps : Bool) :
    (parse_episode_info stem = none ↔ specHasMarker stem = false) ∧
      (∀ g ∈ find_tv_duplicates files ps, ∀ r ∈ g.2,
        ∃ f ∈ files, r.path = f.path ∧ (parse_episode_info f.stem).isSome = true) := by
  constructor
  · unfold parse_episode_info specHasMarker
    cases hs : epSearch 0 stem with
    | some p =>
      simp only []
      constructor
      · intro h; cases h
      · intro h
        have h2 := (epSearch_none_iff stem 0).mpr
        rw [List.any_eq_false] at h
        have h3 : epSearch 0 stem = none := by
          apply h2
          intro j hj
          have h4 := h j (List.mem_range.mpr hj)
          simpa using h4
        rw [h3] at hs
        cases hs
    | none =>
      simp only []
      have h1 := (epSearch_none_iff stem 0).mp hs
      constructor
      · intro _
        rw [List.any_eq_false]
        intro j hj
        simp [h1 j (List.mem_range.mp hj)]
      · intro _; trivial
  · intro g hg r hr
    unfold find_tv_duplicates at hg
    rw [List.mem_filter] at hg
    rcases List.mem_map.mp hg.1 with ⟨k, hk, hkg⟩
    rw [← hkg] at hr
    have hr2 : r ∈ files.filterMap (parseTVFile ps) := List.mem_of_mem_filter hr
    rcases List.mem_filterMap.mp hr2 with ⟨f, hf, hparse⟩
    refine ⟨f, hf, ?_, ?_⟩
    · unfold parseTVFile at hparse
      cases hp : parse_episode_info f.stem with
      | none => rw [hp] at hparse; cases hparse
      | some info =>
        rw [hp] at hparse
        cases hparse
        rfl
    · unfold parseTVFile at hparse
      cases hp : parse_episode_info f.stem with
      | none => rw [hp] at hparse; cases hparse
      | some info => rfl

/-- Witness for C7: on a two-file library forming one duplicate group, every
group member originates from a file whose stem parsed successfully. -/
theorem C7_witness :
    ((str "show", str "S01E01"), [tvRecA, tvRecB]) ∈
        find_tv_duplicates [tvFileA, tvFileB] false ∧
      tvRecA ∈ [tvRecA, tvRecB] ∧
      ∃ f ∈ [tvFileA, tvFileB], tvRecA.path = f.path ∧
        (parse_episode_info f.stem).isSome = true :=
  ⟨by decide, by decide,
    (C7_unparsed_files_never_grouped (str "x") [tvFileA, tvFileB] false).2
      ((str "show", str "S01E01"), [tvRecA, tvRecB]) (by decide) tvRecA (by decide)⟩

/-- A found year token consists of exactly its four digits. -/
theorem yearSearchAux_some_len : ∀ (s : List Char) (prev : Option Char) (i j : ℕ)
    (y : List Char), yearSearchAux prev i s = some (j, y) → y.length = 4 := by
  intro s
  induction s with
  | nil => intro prev i j y h; cases h
  | cons c t ih =>
    intro prev i j y h
    rw [yearSearchAux] at h
    by_cases hy : yearAt prev (c :: t) = true
    · rw [if_pos hy] at h
      rcases t with _ | ⟨x, _ | ⟨y2, _ | ⟨z, w⟩⟩⟩
      · simp [yearAt] at hy
      · simp [yearAt] at hy
      · simp [yearAt] at hy
      · cases h
        simp [List.length_take]
    · rw [if_neg hy] at h
      exact ih (some c) (i + 1) j y h

/-- A found year token is nonempty. -/
theorem yearSearch_some_ne_nil {s : List Char} {j : ℕ} {y : List Char}
    (h : yearSearch s = some (j, y)) : y ≠ [] := by
  intro hnil
  have h4 := yearSearchAux_some_len s none 0 j y h
  rw [hnil] at h4
  cases h4

/-- C8: `parse_movie_info` is total — every folder-name/stem pair yields a
best-effort identity (the Lean function is defined on all inputs; no code
path fails) — and the identity key `movie_id` equals the normalized title
alone, or the normalized title followed by ` ({year})` when a year token
was found. -/
theorem C8_parse_movie_total_movie_id (folder_name filename : List Char) :
    ((parse_movie_info folder_name filename).year = none ∧
      (parse_movie_info folder_name filename).movie_id
        = (parse_movie_info folder_name filename).title) ∨
    (∃ y, (parse_movie_info folder_name filename).year = some y ∧ y ≠ [] ∧
      (parse_movie_info folder_name filename).movie_id
        = (parse_movie_info folder_name filename).title ++ str " (" ++ y ++ str ")") := by
  unfold parse_movie_info
  dsimp only
  split
  next i y heq =>
    right
    have hne : y ≠ [] := yearSearch_some_ne_nil heq
    have hemp : y.isEmpty = false := by
      cases y with
      | nil => exact absurd rfl hne
      | cons a b => rfl
    refine ⟨y, rfl, hne, ?_⟩
    simp only [hemp, Bool.false_eq_true, if_false]
  next heq =>
    left
    exact ⟨rfl, rfl⟩

/-- The integral threshold test is the rational comparison
`similarity ≥ 0.85`. -/
theorem simTest_iff_ratio (a b : List Char) :
    simTest a b = true ↔ (85 / 100 : ℚ) ≤ similarity a b := by
  unfold simTest similarity ratio
  rw [decide_eq_true_eq]
  by_cases hT : (pyLower a).length + (pyLower b).length = 0
  · rw [if_pos hT, hT]
    norm_num
  · rw [if_neg hT]
    have hTpos : (0 : ℚ) < (((pyLower a).length + (pyLower b).length : ℕ) : ℚ) := by
      exact_mod_cast Nat.pos_of_ne_zero hT
    rw [div_le_div_iff₀ (by norm_num) hTpos]
    constructor
    · intro h
      have h2 : ((85 * ((pyLower a).length + (pyLower b).length) : ℕ) : ℚ)
          ≤ ((200 * matchTotal (pyLower a) (pyLower b) : ℕ) : ℚ) := by
        exact_mod_cast h
      push_cast at h2
      push_cast
      linarith
    · intro h
      push_cast at h
      have h2 : ((85 * ((pyLower a).length + (pyLower b).length) : ℕ) : ℚ)
          ≤ ((200 * matchTotal (pyLower a) (pyLower b) : ℕ) : ℚ) := by
        push_cast
        linarith
      exact_mod_cast h2

set_option maxRecDepth 8192 in
/-- C1 (counterexample): a pair in which exactly one record has a year *is*
merged by the fuzzy pass.  `movieRecA` (title `matrix`, no year) and
`movieRecB` (title `matrix`, year 1999) live in different folders and have
different identity keys, so the folder and title passes claim neither; the
fuzzy pass puts both into one `FUZZY:` group because the year guard treats
a missing year on either side as match-permitting. -/
theorem C1_counterexample :
    movieRecA.year = none ∧ movieRecB.year = some (str "1999") ∧
      find_movie_duplicates [movieRecA, movieRecB] true
        = [(str "FUZZY: matrix", [movieRecA, movieRecB])] := by
  refine ⟨rfl, rfl, ?_⟩
  decide

/-- The folder pass claims nothing on two records from distinct folders. -/
theorem folder_pass_two_distinct (a b : MovieRec) (hf : a.folder_path ≠ b.folder_path) :
    folder_duplicates [a, b] = [] := by
  unfold folder_duplicates folderStep firstKeys
  simp [List.filter, beq_eq_false_iff_ne.mpr hf, beq_eq_false_iff_ne.mpr (Ne.symm hf),
    hf, Ne.symm hf]

/-- The title pass claims nothing on two records with distinct ids. -/
theorem title_pass_two_distinct (a b : MovieRec) (hid : a.movie_id ≠ b.movie_id) :
    title_duplicates [a, b] [] = [] := by
  unfold title_duplicates titleStep firstKeys claimedIn
  simp [List.filter, beq_eq_false_iff_ne.mpr hid, beq_eq_false_iff_ne.mpr (Ne.symm hid),
    hid, Ne.symm hid]

/-- On two unclaimed records with distinct ids, the fuzzy pass forms one
group exactly when the candidate is accepted. -/
theorem fuzzy_pass_two_accept (a b : MovieRec) (hid : a.movie_id ≠ b.movie_id)
    (hacc : fuzzyAccept a b = true) :
    fuzzyOuter [] [a, b] [a, b] [] [] = [(fuzzyKey a, [a, b])] := by
  simp [fuzzyOuter, fuzzyInner, claimedIn, dictInsert, hacc, hid, Ne.symm hid,
    beq_eq_false_iff_ne.mpr hid, beq_eq_false_iff_ne.mpr (Ne.symm hid)]

/-- On two unclaimed records with distinct ids, the fuzzy pass forms no
group when the candidate is rejected. -/
theorem fuzzy_pass_two_reject (a b : MovieRec) (hid : a.movie_id ≠ b.movie_id)
    (hacc : fuzzyAccept a b = false) :
    fuzzyOuter [] [a, b] [a, b] [] [] = [] := by
  simp [fuzzyOuter, fuzzyInner, claimedIn, dictInsert, hacc, hid, Ne.symm hid,
    beq_eq_false_iff_ne.mpr hid, beq_eq_false_iff_ne.mpr (Ne.symm hid)]

/-- C1 (amended): for every pair of unclaimed records a and b (distinct
folders, so the folder pass claims neither; distinct identity keys, so the
title pass claims neither), the fuzzy pass merges the pair into one cluster
exactly when their normalized-title similarity is at least 0.85 and either
at least one record lacks a year or their years are equal — the code's year
guard `(ya == yb) if (ya and yb) else True` permits a pair in which exactly
one record has a year. -/
theorem C1_amended_fuzzy_pair (a b : MovieRec)
    (hid : a.movie_id ≠ b.movie_id) (hf : a.folder_path ≠ b.folder_path) :
    (∃ g ∈ find_movie_duplicates [a, b] true, a ∈ g.2 ∧ b ∈ g.2) ↔
      ((85 / 100 : ℚ) ≤ similarity a.title b.title ∧
        year_match a.year b.year = true) := by
  have hfd := folder_pass_two_distinct a b hf
  unfold find_movie_duplicates
  dsimp only
  rw [hfd, title_pass_two_distinct a b hid, if_pos rfl]
  simp only [List.append_nil, List.nil_append]
  by_cases hacc : fuzzyAccept a b = true
  · rw [fuzzy_pass_two_accept a b hid hacc]
    unfold fuzzyAccept at hacc
    rw [Bool.and_eq_true] at hacc
    constructor
    · intro _
      exact ⟨(simTest_iff_ratio _ _).mp hacc.1, hacc.2⟩
    · intro _
      exact ⟨(fuzzyKey a, [a, b]), by simp, by simp, by simp⟩
  · have haccf : fuzzyAccept a b = false := by simpa using hacc
    rw [fuzzy_pass_two_reject a b hid haccf]
    constructor
    · rintro ⟨g, hg, -⟩
      cases hg
    · rintro ⟨hsim, hym⟩
      exfalso
      apply hacc
      unfold fuzzyAccept
      rw [Bool.and_eq_true]
      exact ⟨(simTest_iff_ratio _ _).mpr hsim, hym⟩

set_option maxRecDepth 8192 in
/-- Witness for C1 (amended) at the concrete pair `movieRecA`, `movieRecB`:
the hypotheses hold, and the records (equal titles, similarity 1; one year
absent) are merged. -/
theorem C1_amended_witness :
    movieRecA.movie_id ≠ movieRecB.movie_id ∧
      movieRecA.folder_path ≠ movieRecB.folder_path ∧
      ((∃ g ∈ find_movie_duplicates [movieRecA, movieRecB] true,
          movieRecA ∈ g.2 ∧ movieRecB ∈ g.2) ↔
        ((85 / 100 : ℚ) ≤ similarity movieRecA.title movieRecB.title ∧
          year_match movieRecA.year movieRecB.year = true)) :=
  ⟨by decide, by decide,
    C1_amended_fuzzy_pair movieRecA movieRecB (by decide) (by decide)⟩

/-- Filtering one score class through an ordered insert: the inserted record
lands in front of its own class (every element before the insertion point
has a strictly smaller score). -/
theorem filter_orderedInsert (q : ℚ) (r : MovieRec) : ∀ l : List MovieRec,
    (List.orderedInsert (fun a b => a.score ≤ b.score) r l).filter
        (fun x => x.score == q)
      = if r.score == q then r :: l.filter (fun x => x.score == q)
        else l.filter (fun x => x.score == q) := by
  intro l
  induction l with
  | nil =>
    rw [List.orderedInsert_nil]
    by_cases h : r.score = q
    · simp [List.filter, h]
    · simp [List.filter, h, beq_eq_false_iff_ne.mpr h]
  | cons x xs ih =>
    rw [List.orderedInsert]
    by_cases hle : r.score ≤ x.score
    · rw [if_pos hle]
      by_cases h : r.score = q
      · simp [List.filter_cons, h]
      · simp [List.filter_cons, h, beq_eq_false_iff_ne.mpr h]
    · rw [if_neg hle, List.filter_cons, List.filter_cons, ih]
      have hlt : x.score < r.score := lt_of_not_le hle
      by_cases h : r.score = q
      · have hx : ¬ x.score = q := by
          intro hx
          rw [hx, ← h] at hlt
          exact lt_irrefl _ hlt
        simp [h, beq_eq_false_iff_ne.mpr hx]
      · by_cases hx : x.score = q
        · simp [hx, beq_eq_false_iff_ne.mpr h]
        · simp [beq_eq_false_iff_ne.mpr hx, beq_eq_false_iff_ne.mpr h]

/-- The sort of the Selection Policy is stable: each score class is kept in
discovery order. -/
theorem sortByScore_stable (q : ℚ) : ∀ files : List MovieRec,
    (sortByScore files).filter (fun x => x.score == q)
      = files.filter (fun x => x.score == q) := by
  intro files
  induction files with
  | nil => rfl
  | cons f fs ih =>
    show (List.orderedInsert _ f (List.insertionSort _ fs)).filter _ = _
    rw [filter_orderedInsert, List.filter_cons]
    by_cases h : f.score = q
    · simpa [h, sortByScore] using ih
    · simpa [beq_eq_false_iff_ne.mpr h, sortByScore] using ih

/-- In a list sorted ascending by score, every member's score is at most the
last member's. -/
theorem sorted_le_getLast : ∀ (l : List MovieRec),
    l.Pairwise (fun a b => a.score ≤ b.score) →
    ∀ x ∈ l, ∀ k ∈ l.getLast?, x.score ≤ k.score := by
  intro l
  induction l with
  | nil => intro _ x hx; cases hx
  | cons y t ih =>
    intro hp x hx k hk
    cases t with
    | nil =>
      rcases List.mem_singleton.mp hx with rfl
      have hxk : x = k := by simpa using hk
      rw [← hxk]
    | cons z u =>
      rw [List.getLast?_cons_cons] at hk
      have hkin : k ∈ z :: u := List.mem_of_mem_getLast? hk
      rcases List.mem_cons.mp hx with rfl | hx2
      · exact le_trans (le_refl x.score) (List.rel_of_pairwise_cons hp hkin)
      · exact ih (List.Pairwise.of_cons hp) x hx2 k hk

/-- C3: for every duplicate group (at least two pairwise-distinct members,
as the pipeline constructs them), the selection step sorts the members
ascending by score with a stable sort (equal scores keep discovery order);
with `reverse = false` the kept record is the last after sorting — a
highest-scoring member — and with `reverse = true` it is the first — a
lowest-scoring member; the kept record is never among the deletion
candidates, which number exactly one less than the group. -/
theorem C3_selection_policy (files : List MovieRec) (h2 : 2 ≤ files.length)
    (hnd : files.Nodup) (rev : Bool) :
    (sortByScore files).Perm files ∧
      (sortByScore files).Pairwise (fun a b => a.score ≤ b.score) ∧
      (∀ q : ℚ, (sortByScore files).filter (fun x => x.score == q)
        = files.filter (fun x => x.score == q)) ∧
      ∃ k, selectKeep files rev = some k ∧
        k ∉ selectDelete files rev ∧
        (selectDelete files rev).length = files.length - 1 ∧
        (if rev then ∀ x ∈ files, k.score ≤ x.score
         else ∀ x ∈ files, x.score ≤ k.score) := by
  have hperm : (sortByScore files).Perm files := List.perm_insertionSort _ files
  have hsorted : (sortByScore files).Pairwise (fun a b => a.score ≤ b.score) := by
    exact List.sorted_insertionSort (fun a b : MovieRec => a.score ≤ b.score) files
  have hnds : (sortByScore files).Nodup := hperm.nodup_iff.mpr hnd
  have hlen : (sortByScore files).length = files.length := hperm.length_eq
  have hne : sortByScore files ≠ [] := by
    intro h
    rw [h] at hlen
    simp at hlen
    omega
  refine ⟨hperm, hsorted, fun q => sortByScore_stable q files, ?_⟩
  cases rev with
  | true =>
    cases hs : sortByScore files with
    | nil => exact absurd hs hne
    | cons k t =>
      refine ⟨k, ?_, ?_, ?_, ?_⟩
      · rw [selectKeep, if_pos rfl, hs]
        rfl
      · rw [selectDelete, if_pos rfl, hs]
        rw [hs] at hnds
        exact (List.nodup_cons.mp hnds).1
      · rw [selectDelete, if_pos rfl, hs]
        rw [hs] at hlen
        simp only [List.length_cons] at hlen
        simp only [List.length_tail, List.length_cons]
        omega
      · rw [if_pos rfl]
        intro x hx
        have hxs : x ∈ sortByScore files := hperm.mem_iff.mpr hx
        rw [hs] at hxs hsorted
        rcases List.mem_cons.mp hxs with rfl | hx2
        · exact le_refl _
        · exact List.rel_of_pairwise_cons hsorted hx2
  | false =>
    cases hgl : (sortByScore files).getLast? with
    | none => exact absurd (List.getLast?_eq_none_iff.mp hgl) hne
    | some k =>
      have hdec : (sortByScore files).dropLast ++ [k] = sortByScore files :=
        List.dropLast_append_getLast? k (by rw [hgl]; rfl)
      refine ⟨k, ?_, ?_, ?_, ?_⟩
      · rw [selectKeep, if_neg (by simp), hgl]
      · rw [selectDelete, if_neg (by simp)]
        have hnd2 : ((sortByScore files).dropLast ++ [k]).Nodup := by
          rw [hdec]; exact hnds
        have hdisj := (List.nodup_append.mp hnd2).2.2
        intro hmem
        exact hdisj hmem (by simp)
      · rw [selectDelete, if_neg (by simp), List.length_dropLast, hlen]
      · rw [if_neg (by simp)]
        intro x hx
        exact sorted_le_getLast _ hsorted x (hperm.mem_iff.mpr hx) k (by rw [hgl]; rfl)

/-- Witness for C3 at a concrete two-record group with scores 1 and 2, in
default (non-reverse) mode. -/
theorem C3_witness :
    2 ≤ ([movieRecD, movieRecC] : List MovieRec).length ∧
      ([movieRecD, movieRecC] : List MovieRec).Nodup ∧
      ((sortByScore [movieRecD, movieRecC]).Perm [movieRecD, movieRecC] ∧
        (sortByScore [movieRecD, movieRecC]).Pairwise (fun a b => a.score ≤ b.score) ∧
        (∀ q : ℚ, (sortByScore [movieRecD, movieRecC]).filter (fun x => x.score == q)
          = ([movieRecD, movieRecC] : List MovieRec).filter (fun x => x.score == q)) ∧
        ∃ k, selectKeep [movieRecD, movieRecC] false = some k ∧
          k ∉ selectDelete [movieRecD, movieRecC] false ∧
          (selectDelete [movieRecD, movieRecC] false).length
            = ([movieRecD, movieRecC] : List MovieRec).length - 1 ∧
          (if false then ∀ x ∈ ([movieRecD, movieRecC] : List MovieRec), k.score ≤ x.score
           else ∀ x ∈ ([movieRecD, movieRecC] : List MovieRec), x.score ≤ k.score)) :=
  ⟨by decide, by decide,
    C3_selection_policy [movieRecD, movieRecC] (by decide) (by decide) false⟩

/-- An entry of a dict after assignment is the new binding or an old entry. -/
theorem dictInsert_mem {d : List (List Char × List MovieRec)} {k : List Char}
    {v : List MovieRec} : ∀ e ∈ dictInsert d k v, e = (k, v) ∨ e ∈ d := by
  intro e he
  unfold dictInsert at he
  by_cases h : d.any (fun x => x.1 == k)
  · rw [if_pos h] at he
    rcases List.mem_map.mp he with ⟨x, hx, hxe⟩
    by_cases hk : x.1 == k
    · rw [if_pos hk] at hxe; exact Or.inl hxe.symm
    · rw [if_neg hk] at hxe; exact Or.inr (hxe ▸ hx)
  · rw [if_neg h] at he
    rcases List.mem_append.mp he with h1 | h1
    · exact Or.inr h1
    · exact Or.inl (List.mem_singleton.mp h1)

/-- Dict assignment preserves the key of every position. -/
theorem dictInsert_key_aux {k : List Char} {v : List MovieRec}
    (e : List Char × List MovieRec) :
    ((if e.1 == k then (k, v) else e) : List Char × List MovieRec).1 = e.1 := by
  by_cases h : e.1 == k
  · rw [if_pos h]
    exact (beq_iff_eq.mp h).symm
  · rw [if_neg h]

/-- Dict assignment keeps the keys pairwise distinct. -/
theorem dictInsert_keysDiffer {d : List (List Char × List MovieRec)} {k : List Char}
    {v : List MovieRec} (hnd : d.Pairwise keysDiffer) :
    (dictInsert d k v).Pairwise keysDiffer := by
  unfold dictInsert
  by_cases h : d.any (fun x => x.1 == k)
  · rw [if_pos h]
    rw [List.pairwise_map]
    apply hnd.imp_of_mem
    intro a b _ _ hab
    unfold keysDiffer at hab ⊢
    rw [dictInsert_key_aux a, dictInsert_key_aux b]
    exact hab
  · rw [if_neg h]
    rw [List.pairwise_append]
    refine ⟨hnd, by simp [keysDiffer], ?_⟩
    intro a ha b hb
    rw [List.mem_singleton.mp hb]
    unfold keysDiffer
    have h2 : d.any (fun x => x.1 == k) = false := by
      rw [Bool.eq_false_iff]
      exact h
    rw [List.any_eq_false] at h2
    have h3 := h2 a ha
    simpa using h3

/-- Dict assignment preserves pairwise disjointness when the new value is
disjoint from every present entry. -/
theorem dictInsert_pairwise_disj {d : List (List Char × List MovieRec)}
    {k : List Char} {v : List MovieRec} (hnd : d.Pairwise keysDiffer)
    (hdisj : d.Pairwise groupsDisj)
    (hnew : ∀ e ∈ d, groupsDisj e (k, v) ∧ groupsDisj (k, v) e) :
    (dictInsert d k v).Pairwise groupsDisj := by
  unfold dictInsert
  by_cases h : d.any (fun x => x.1 == k)
  · rw [if_pos h]
    rw [List.pairwise_map]
    apply (hnd.and hdisj).imp_of_mem
    intro a b ha hb hab
    obtain ⟨hne, hd⟩ := hab
    by_cases hak : a.1 == k
    · have hbk : ¬ b.1 == k := by
        intro hbk
        exact hne (((beq_iff_eq.mp hak).trans (beq_iff_eq.mp hbk).symm))
      rw [if_pos hak, if_neg hbk]
      exact (hnew b hb).2
    · rw [if_neg hak]
      by_cases hbk : b.1 == k
      · rw [if_pos hbk]
        exact (hnew a ha).1
      · rw [if_neg hbk]
        exact hd
  · rw [if_neg h]
    rw [List.pairwise_append]
    refine ⟨hdisj, by simp [groupsDisj], ?_⟩
    intro a ha b hb
    rw [List.mem_singleton.mp hb]
    exact (hnew a ha).1

/-- A record is unclaimed exactly when it belongs to no group's members. -/
theorem claimedIn_false_iff (gs : List (List Char × List MovieRec)) (r : MovieRec) :
    claimedIn gs r = false ↔ ∀ g ∈ gs, r ∉ g.2 := by
  unfold claimedIn
  rw [List.any_eq_false]
  constructor
  · intro h g hg hmem
    have h2 := h g hg
    rw [List.elem_iff] at h2
    exact h2 hmem
  · intro h g hg
    rw [List.elem_iff]
    exact h g hg

/-- Invariant of the folder-pass fold: keys stay pairwise distinct and every
entry is some folder's key with that folder's member list. -/
theorem folderFold_spec (parsed : List MovieRec) : ∀ (ks : List FsPath)
    (d : List (List Char × List MovieRec)),
    d.Pairwise keysDiffer →
    (∀ e ∈ d, ∃ f : FsPath, e.1 = str "FOLDER: " ++ f.name ∧
      e.2 = parsed.filter (fun r => r.folder_path == f)) →
    (ks.foldl (folderStep parsed) d).Pairwise keysDiffer ∧
      ∀ e ∈ ks.foldl (folderStep parsed) d, ∃ f : FsPath,
        e.1 = str "FOLDER: " ++ f.name ∧
        e.2 = parsed.filter (fun r => r.folder_path == f) := by
  intro ks
  induction ks with
  | nil => intro d h1 h2; exact ⟨h1, h2⟩
  | cons f ks ih =>
    intro d h1 h2
    rw [List.foldl_cons]
    apply ih
    · unfold folderStep
      by_cases hlen : 1 < (parsed.filter (fun r => r.folder_path == f)).length
      · rw [if_pos hlen]
        exact dictInsert_keysDiffer h1
      · rw [if_neg hlen]
        exact h1
    · unfold folderStep
      by_cases hlen : 1 < (parsed.filter (fun r => r.folder_path == f)).length
      · rw [if_pos hlen]
        intro e he
        rcases dictInsert_mem e he with h | h
        · exact ⟨f, by rw [h], by rw [h]⟩
        · exact h2 e h
      · rw [if_neg hlen]
        exact h2

/-- Invariant of the title-pass fold: keys stay pairwise distinct and every
entry is some id's key with that id's member list among the eligible
records. -/
theorem titleFold_spec (eligible : List MovieRec) : ∀ (ks : List (List Char))
    (d : List (List Char × List MovieRec)),
    d.Pairwise keysDiffer →
    (∀ e ∈ d, ∃ mid : List Char, e.1 = str "TITLE: " ++ mid ∧
      e.2 = eligible.filter (fun r => r.movie_id == mid)) →
    (ks.foldl (titleStep eligible) d).Pairwise keysDiffer ∧
      ∀ e ∈ ks.foldl (titleStep eligible) d, ∃ mid : List Char,
        e.1 = str "TITLE: " ++ mid ∧
        e.2 = eligible.filter (fun r => r.movie_id == mid) := by
  intro ks
  induction ks with
  | nil => intro d h1 h2; exact ⟨h1, h2⟩
  | cons mid ks ih =>
    intro d h1 h2
    rw [List.foldl_cons]
    apply ih
    · unfold titleStep
      by_cases hlen : 1 < (eligible.filter (fun r => r.movie_id == mid)).length
      · rw [if_pos hlen]
        exact dictInsert_keysDiffer h1
      · rw [if_neg hlen]
        exact h1
    · unfold titleStep
      by_cases hlen : 1 < (eligible.filter (fun r => r.movie_id == mid)).length
      · rw [if_pos hlen]
        intro e he
        rcases dictInsert_mem e he with h | h
        · exact ⟨mid, by rw [h], by rw [h]⟩
        · exact h2 e h
      · rw [if_neg hlen]
        exact h2

/-- Appending the same text on the left preserves distinctness. -/
theorem append_left_ne {p a b : List Char} (h : p ++ a ≠ p ++ b) : a ≠ b := by
  intro hab
  exact h (by rw [hab])

/-- The groups of the folder pass are pairwise disjoint. -/
theorem folder_duplicates_disjoint (parsed : List MovieRec) :
    (folder_duplicates parsed).Pairwise groupsDisj := by
  obtain ⟨h1, h2⟩ := folderFold_spec parsed
    (firstKeys (parsed.map (fun r => r.folder_path))) [] (by simp) (by simp)
  apply h1.imp_of_mem
  intro a b ha hb hne
  obtain ⟨f1, hk1, hv1⟩ := h2 a ha
  obtain ⟨f2, hk2, hv2⟩ := h2 b hb
  have hf : f1 ≠ f2 := by
    intro heq
    exact hne (by rw [hk1, hk2, heq])
  intro r hr1 hr2
  rw [hv1, List.mem_filter] at hr1
  rw [hv2, List.mem_filter] at hr2
  exact hf ((beq_iff_eq.mp hr1.2).symm.trans (beq_iff_eq.mp hr2.2))

/-- The groups of the title pass are pairwise disjoint, and every member is
unclaimed by the folder pass. -/
theorem title_duplicates_disjoint (parsed : List MovieRec)
    (fd : List (List Char × List MovieRec)) :
    (title_duplicates parsed fd).Pairwise groupsDisj ∧
      ∀ e ∈ title_duplicates parsed fd, ∀ r ∈ e.2, claimedIn fd r = false := by
  obtain ⟨h1, h2⟩ := titleFold_spec (parsed.filter (fun r => !claimedIn fd r))
    (firstKeys ((parsed.filter (fun r => !claimedIn fd r)).map (fun r => r.movie_id)))
    [] (by simp) (by simp)
  constructor
  · apply h1.imp_of_mem
    intro a b ha hb hne
    obtain ⟨m1, hk1, hv1⟩ := h2 a ha
    obtain ⟨m2, hk2, hv2⟩ := h2 b hb
    have hm : m1 ≠ m2 := by
      intro heq
      exact hne (by rw [hk1, hk2, heq])
    intro r hr1 hr2
    rw [hv1, List.mem_filter] at hr1
    rw [hv2, List.mem_filter] at hr2
    exact hm ((beq_iff_eq.mp hr1.2).symm.trans (beq_iff_eq.mp hr2.2))
  · intro e he r hr
    obtain ⟨m1, _, hv1⟩ := h2 e he
    rw [hv1, List.mem_filter] at hr
    have hr2 := (List.mem_filter.mp hr.1).2
    simpa using hr2

/-- Invariant of the fuzzy inner scan: the processed list only grows, and
every member of the resulting cluster is either an initial member or an
accepted candidate — unclaimed by the earlier passes, with an id that was
unprocessed on entry and is processed on exit. -/
theorem fuzzyInner_spec (claimed : List (List Char × List MovieRec)) (fi : MovieRec) :
    ∀ (l cluster : List MovieRec) (processed : List (List Char)),
    (∃ ext, (fuzzyInner claimed fi l cluster processed).2 = processed ++ ext) ∧
      ∀ r ∈ (fuzzyInner claimed fi l cluster processed).1,
        r ∈ cluster ∨
          (claimedIn claimed r = false ∧ r.movie_id ∉ processed ∧
            r.movie_id ∈ (fuzzyInner claimed fi l cluster processed).2) := by
  intro l
  induction l with
  | nil =>
    intro cluster processed
    exact ⟨⟨[], by simp [fuzzyInner]⟩, fun r hr => Or.inl hr⟩
  | cons other rest ih =>
    intro cluster processed
    by_cases h1 : (other.movie_id == fi.movie_id) = true
    · rw [fuzzyInner, if_pos h1]
      exact ih cluster processed
    · by_cases h2 : processed.contains other.movie_id = true
      · rw [fuzzyInner, if_neg h1, if_pos h2]
        exact ih cluster processed
      · by_cases h3 : claimedIn claimed other = true
        · rw [fuzzyInner, if_neg h1, if_neg h2, if_pos h3]
          exact ih cluster processed
        · by_cases h4 : fuzzyAccept fi other = true
          · rw [fuzzyInner, if_neg h1, if_neg h2, if_neg h3, if_pos h4]
            obtain ⟨⟨ext, hext⟩, hmem⟩ :=
              ih (cluster ++ [other]) (processed ++ [other.movie_id])
            refine ⟨⟨[other.movie_id] ++ ext, by rw [hext, List.append_assoc]⟩, ?_⟩
            intro r hr
            rcases hmem r hr with hin | ⟨hub, hnp, hinp⟩
            · rcases List.mem_append.mp hin with hc | ho
              · exact Or.inl hc
              · have hro : r = other := List.mem_singleton.mp ho
                subst hro
                refine Or.inr ⟨by simpa using h3, ?_, ?_⟩
                · intro hmem2
                  apply h2
                  rw [List.elem_iff]
                  exact hmem2
                · rw [hext]
                  exact List.mem_append_left _ (List.mem_append_right _ (by simp))
            · refine Or.inr ⟨hub, ?_, hinp⟩
              intro hp
              exact hnp (List.mem_append_left _ hp)
          · rw [fuzzyInner, if_neg h1, if_neg h2, if_neg h3, if_neg h4]
            exact ih cluster processed

/-- Invariant of the fuzzy outer scan: if the accumulated groups have
pairwise distinct keys, are pairwise disjoint, and contain only records
whose ids are processed and which are unclaimed by the earlier passes, then
the final group list is pairwise disjoint and contains only unclaimed
records. -/
theorem fuzzyOuter_spec (claimed : List (List Char × List MovieRec))
    (parsed : List MovieRec) :
    ∀ (l : List MovieRec) (groups : List (List Char × List MovieRec))
      (processed : List (List Char)),
    groups.Pairwise keysDiffer →
    groups.Pairwise groupsDisj →
    (∀ g ∈ groups, ∀ r ∈ g.2, r.movie_id ∈ processed ∧ claimedIn claimed r = false) →
    (fuzzyOuter claimed parsed l groups processed).Pairwise groupsDisj ∧
      ∀ g ∈ fuzzyOuter claimed parsed l groups processed, ∀ r ∈ g.2,
        claimedIn claimed r = false := by
  intro l
  induction l with
  | nil =>
    intro groups processed h1 h2 h3
    exact ⟨h2, fun g hg r hr => (h3 g hg r hr).2⟩
  | cons fi rest ih =>
    intro groups processed h1 h2 h3
    by_cases hc1 : processed.contains fi.movie_id = true
    · rw [fuzzyOuter, if_pos hc1]
      exact ih groups processed h1 h2 h3
    · by_cases hc2 : claimedIn claimed fi = true
      · rw [fuzzyOuter, if_neg hc1, if_pos hc2]
        exact ih groups processed h1 h2 h3
      · rw [fuzzyOuter, if_neg hc1, if_neg hc2]
        obtain ⟨⟨ext, hext⟩, hmem⟩ :=
          fuzzyInner_spec claimed fi parsed [fi] (processed ++ [fi.movie_id])
        have hcmem : ∀ r ∈ (fuzzyInner claimed fi parsed [fi]
              (processed ++ [fi.movie_id])).1,
            claimedIn claimed r = false ∧ r.movie_id ∉ processed ∧
              r.movie_id ∈ (fuzzyInner claimed fi parsed [fi]
                (processed ++ [fi.movie_id])).2 := by
          intro r hr
          rcases hmem r hr with hseed | hcand
          · have hrfi : r = fi := List.mem_singleton.mp hseed
            subst hrfi
            refine ⟨by simpa using hc2, ?_, ?_⟩
            · intro hp
              apply hc1
              rw [List.elem_iff]
              exact hp
            · rw [hext]
              exact List.mem_append_left _ (List.mem_append_right _ (by simp))
          · obtain ⟨hub, hnp, hinp⟩ := hcand
            exact ⟨hub, fun hp => hnp (List.mem_append_left _ hp), hinp⟩
        have hold : ∀ g ∈ groups, ∀ r ∈ g.2,
            r.movie_id ∈ (fuzzyInner claimed fi parsed [fi]
              (processed ++ [fi.movie_id])).2 ∧
              claimedIn claimed r = false := by
          intro g hg r hr
          refine ⟨?_, (h3 g hg r hr).2⟩
          rw [hext]
          exact List.mem_append_left _ (List.mem_append_left _ (h3 g hg r hr).1)
        by_cases hlen : 1 < (fuzzyInner claimed fi parsed [fi]
            (processed ++ [fi.movie_id])).1.length
        · rw [if_pos hlen]
          apply ih
          · exact dictInsert_keysDiffer h1
          · apply dictInsert_pairwise_disj h1 h2
            intro e he
            constructor
            · intro r hre hrc
              exact ((hcmem r hrc).2.1) (h3 e he r hre).1
            · intro r hrc hre
              exact ((hcmem r hrc).2.1) (h3 e he r hre).1
          · intro g hg r hr
            rcases dictInsert_mem g hg with hnew | hgold
            · have hr2 : r ∈ (fuzzyInner claimed fi parsed [fi]
                  (processed ++ [fi.movie_id])).1 := by
                rw [hnew] at hr
                exact hr
              exact ⟨(hcmem r hr2).2.2, (hcmem r hr2).1⟩
            · exact hold g hgold r hr
        · rw [if_neg hlen]
          exact ih groups _ h1 h2 hold

/-- C4: for every parsed record set and every setting of the fuzzy-matching
flag, the duplicate groups returned by one movie grouping run are pairwise
disjoint — no record appears in two groups, because the title pass filters
out records claimed by the folder pass and the fuzzy pass skips records
claimed by either, so the folder, title and fuzzy passes produce mutually
exclusive groups. -/
theorem C4_grouping_exclusive (parsed : List MovieRec) (fz : Bool) :
    (find_movie_duplicates parsed fz).Pairwise groupsDisj := by
  unfold find_movie_duplicates
  dsimp only
  obtain ⟨htd, htdu⟩ := title_duplicates_disjoint parsed (folder_duplicates parsed)
  have hfz : (if fz = true then fuzzyOuter
        (folder_duplicates parsed ++ title_duplicates parsed (folder_duplicates parsed))
        parsed parsed [] [] else []).Pairwise groupsDisj ∧
      ∀ g ∈ (if fz = true then fuzzyOuter
          (folder_duplicates parsed ++
            title_duplicates parsed (folder_duplicates parsed))
          parsed parsed [] [] else []), ∀ r ∈ g.2,
        claimedIn (folder_duplicates parsed ++
          title_duplicates parsed (folder_duplicates parsed)) r = false := by
    cases fz with
    | false =>
      rw [if_neg (by simp)]
      exact ⟨List.Pairwise.nil, by simp⟩
    | true =>
      rw [if_pos rfl]
      exact fuzzyOuter_spec _ parsed parsed [] [] (by simp) (by simp) (by simp)
  rw [List.append_assoc, List.pairwise_append]
  refine ⟨folder_duplicates_disjoint parsed, ?_, ?_⟩
  · rw [List.pairwise_append]
    refine ⟨htd, hfz.1, ?_⟩
    intro a ha b hb r hra hrb
    have hb2 := hfz.2 b hb r hrb
    rw [claimedIn_false_iff] at hb2
    exact hb2 a (List.mem_append_right _ ha) hra
  · intro a ha b hb r hra hrb
    rcases List.mem_append.mp hb with hbtd | hbfz
    · have hau := htdu b hbtd r hrb
      rw [claimedIn_false_iff] at hau
      exact hau a ha hra
    · have hb2 := hfz.2 b hbfz r hrb
      rw [claimedIn_false_iff] at hb2
      exact hb2 a (List.mem_append_left _ ha) hra
